import Mathlib

/-!
# Verification of the handlr handler-resolution engine

A shallow embedding of the core of the `handlr` repository (the cited
revision under `src/`): the user association store (`MimeApps`,
`src/apps/user.rs`), the resolver (`Config`, `src/config/main_config.rs`),
the system catalog (`SystemApps`, `src/apps/system.rs`) and the exec
templating engine (`DesktopEntry::get_cmd`,
`src/common/desktop_entry.rs`).

Strings are represented as `List Char` (`Str`).  The association file is
represented as its list of lines (so statements about file contents are
"byte-for-byte up to line-ending normalization" automatically).  External
effects are injected as parameters:

* `entries : Str → Option DesktopEntry` models the desktop files present
  on the system (used by `DesktopHandler::get_entry`); a handler name is
  resolvable exactly when `entries` returns a `DesktopEntry` for it.
* `valid : Str → Bool` models whether `DesktopHandler::from_str` succeeds
  for a name (it resolves the name against the filesystem).
* `run : Str → Str` models the selector subprocess: the bytes it writes
  to stdout as a function of the bytes received on stdin.
* the global MIME registry `mime_db::TYPES` is a parameter `db`.

External library functions called by the source (`wildmatch`, `shlex`,
`aho-corasick` with the fixed patterns `%f %F %u %U`, `serde_ini`) are
modelled by executable Lean functions following those libraries'
documented semantics.
-/

/-- Strings as lists of characters. -/
abbrev Str := List Char

namespace Handlr

/-- `text.split(sep)` on one separator character: returns the (possibly
empty) segments between occurrences of `c`; always nonempty. -/
def splitChar (c : Char) : Str → List Str
  | [] => [[]]
  | x :: xs =>
    let r := splitChar c xs
    if x = c then [] :: r
    else
      match r with
      | [] => [[x]]
      | p :: ps => (x :: p) :: ps

/-- `parts.join(sep)` for a one-character separator. -/
def joinSep (c : Char) : List Str → Str
  | [] => []
  | [p] => p
  | p :: q :: r => p ++ c :: joinSep c (q :: r)

/-- `Itertools::unique`: drop duplicates, keeping the first occurrence.
`seen` accumulates the elements already emitted. -/
def uniqueFrom (seen : List Str) : List Str → List Str
  | [] => []
  | x :: xs =>
    if x ∈ seen then uniqueFrom seen xs
    else x :: uniqueFrom (x :: seen) xs

/-- `Itertools::unique` as used in `DesktopList::from_str`. -/
def uniqueFirst (l : List Str) : List Str :=
  uniqueFrom [] l

/-- Byte-order `<` on strings: the `Ord` used for `BTreeMap<Mime, _>`
keys (all keys in scope are ASCII, so byte order is codepoint order). -/
def strLt : Str → Str → Bool
  | [], [] => false
  | [], _ :: _ => true
  | _ :: _, [] => false
  | a :: as, b :: bs => a < b || (a = b && strLt as bs)

/-- `str::trim_end`: drop trailing whitespace. -/
def trimEnd (s : Str) : Str :=
  (s.reverse.dropWhile Char.isWhitespace).reverse

/-- Model of `wildmatch::WildMatch::matches`: glob matching where `*`
matches any run of characters (possibly empty) and `?` matches exactly
one character.  A `*` consumes an arbitrary prefix of the text, so the
rest of the pattern must match some suffix. -/
def wildMatch : Str → Str → Bool
  | [], t => t.isEmpty
  | '*' :: ps, t => t.tails.any (fun s => wildMatch ps s)
  | _ :: _, [] => false
  | p :: ps, t :: ts => (p = '?' || p = t) && wildMatch ps ts

/-- Does `pat` start the string `s`? (`str::starts_with`). -/
def startsWith : Str → Str → Bool
  | [], _ => true
  | _ :: _, [] => false
  | p :: ps, c :: cs => c = p && startsWith ps cs

/-- Substring containment, checked at every start position.  Used as the
specification-side reading of "contains a placeholder substring". -/
def containsSub (pat : Str) : Str → Bool
  | [] => startsWith pat []
  | c :: cs => startsWith pat (c :: cs) || containsSub pat cs

/-- Is `d` one of the placeholder letters of `%f`, `%F`, `%u`, `%U`? -/
def phChar (d : Char) : Bool :=
  d = 'f' || d = 'F' || d = 'u' || d = 'U'

/-- Model of `AhoCorasick::is_match` for the fixed patterns
`["%f", "%F", "%u", "%U"]`: a single left-to-right scan checking for a
`%` immediately followed by a placeholder letter. -/
def containsSpecial : Str → Bool
  | [] => false
  | [_] => false
  | c :: d :: rest => (c = '%' && phChar d) || containsSpecial (d :: rest)

/-- Model of the `AhoCorasick::replace_all_with` call in `get_cmd` for
the same patterns.  The closure passed by the source returns `false`,
which makes `replace_all_with` stop after the first match: only the
leftmost placeholder occurrence is replaced by `rep`, and the rest of
the token is copied verbatim. -/
def replaceSpecial (rep : Str) : Str → Str
  | [] => []
  | [c] => [c]
  | c :: d :: rest =>
    if c = '%' && phChar d then rep ++ rest
    else c :: replaceSpecial rep (d :: rest)

/-- Every-occurrence replacement: what `replace_all_with` would do if
the closure returned `true`.  The program does not behave like this
(the closure returns `false`); kept as the specification side of the
refuted every-occurrence reading. -/
def replaceAllSpecial (rep : Str) : Str → Str
  | [] => []
  | [c] => [c]
  | c :: d :: rest =>
    if c = '%' && phChar d then rep ++ replaceAllSpecial rep rest
    else c :: replaceAllSpecial rep (d :: rest)

/-! ## A model of `shlex::split`

The `shlex` crate splits a command line into words the way a POSIX shell
would: unquoted whitespace separates words, `#` at a word boundary starts
a comment running to the end of the line, a backslash escapes the next
character (a backslash-newline contributes nothing), single and double
quotes group, and inside double quotes a backslash escapes `$`, a
backtick, `"`, `\` and newline while any other escaped character keeps
its backslash.  `split` returns `None` when the input ends inside a
quote or right after a backslash. -/

/-- Lexer mode for the `shlex` model. -/
inductive ShMode
  | norm
  | single
  | double
  | comment
  deriving DecidableEq, Repr

/-- Is `c` a word separator for `shlex`? -/
def shWs (c : Char) : Bool :=
  c = ' ' || c = '\t' || c = '\n'

/-- Core loop of the `shlex::split` model.  `inWord` records whether a
word is in progress, `cur` is the word built so far, `acc` the finished
words. -/
def shlexCore : ShMode → Bool → Str → List Str → Str → Option (List Str)
  | .norm, inWord, cur, acc, [] =>
    some (if inWord then acc ++ [cur] else acc)
  | .comment, _, _, acc, [] => some acc
  | .single, _, _, _, [] => none
  | .double, _, _, _, [] => none
  | .norm, inWord, cur, acc, c :: rest =>
    if c = '\\' then
      match rest with
      | [] => none
      | d :: rest2 =>
        if d = '\n' then shlexCore .norm true cur acc rest2
        else shlexCore .norm true (cur ++ [d]) acc rest2
    else if c = '\'' then shlexCore .single true cur acc rest
    else if c = '"' then shlexCore .double true cur acc rest
    else if shWs c then
      if inWord then shlexCore .norm false [] (acc ++ [cur]) rest
      else shlexCore .norm false [] acc rest
    else if c = '#' && !inWord then shlexCore .comment false [] acc rest
    else shlexCore .norm true (cur ++ [c]) acc rest
  | .single, _, cur, acc, c :: rest =>
    if c = '\\' then
      match rest with
      | [] => none
      | d :: rest2 =>
        if d = '\\' || d = '\'' then shlexCore .single true (cur ++ [d]) acc rest2
        else shlexCore .single true (cur ++ ['\\', d]) acc rest2
    else if c = '\'' then shlexCore .norm true cur acc rest
    else shlexCore .single true (cur ++ [c]) acc rest
  | .double, _, cur, acc, c :: rest =>
    if c = '\\' then
      match rest with
      | [] => none
      | d :: rest2 =>
        if d = '$' || d = '`' || d = '"' || d = '\\' then
          shlexCore .double true (cur ++ [d]) acc rest2
        else if d = '\n' then shlexCore .double true cur acc rest2
        else shlexCore .double true (cur ++ ['\\', d]) acc rest2
    else if c = '"' then shlexCore .norm true cur acc rest
    else shlexCore .double true (cur ++ [c]) acc rest
  | .comment, _, _, acc, c :: rest =>
    if c = '\n' then shlexCore .norm false [] acc rest
    else shlexCore .comment false [] acc rest

/-- Model of `shlex::split`. -/
def shlexSplit (s : Str) : Option (List Str) :=
  shlexCore .norm false [] [] s

/-! ## Data model -/

/-- The error type of the program (`src/error.rs`), restricted to the
constructors the embedded operations can produce. -/
inductive Err
  | notFound (what : Str)
  | cancelled
  | selector (cmd : Str)
  | noTerminal
  | badMimeType (s : Str)
  | badEntry (path : Str)
  | badExec (exec fileName : Str)
  | badCmd (cmd : Str)
  | deserialize (line : Str)
  deriving DecidableEq, Repr

/-- Decidable equality for `Except`, so concrete runs of the fallible
operations can be checked by `decide`. -/
instance exceptDecidableEq {ε α : Type} [DecidableEq ε] [DecidableEq α] :
    DecidableEq (Except ε α)
  | .ok a, .ok b =>
    if h : a = b then isTrue (by rw [h])
    else isFalse (by intro hh; cases hh; exact h rfl)
  | .ok _, .error _ => isFalse (by intro hh; cases hh)
  | .error _, .ok _ => isFalse (by intro hh; cases hh)
  | .error e, .error f =>
    if h : e = f then isTrue (by rw [h])
    else isFalse (by intro hh; cases hh; exact h rfl)

/-- A handler list value (`DesktopList`): an ordered list of desktop
handler names. -/
abbrev DesktopList := List Str

/-- A `BTreeMap<Mime, DesktopList>`, represented as an association list
ordered strictly by `strLt` on the keys. -/
abbrev MimeMap := List (Str × DesktopList)

/-- `BTreeMap::get`. -/
def mapGet (m : MimeMap) (k : Str) : Option DesktopList :=
  (m.find? (fun p => p.1 = k)).map (fun p => p.2)

/-- `BTreeMap::insert`: replace the value at `k`, or insert `(k, v)` at
its sorted position. -/
def mapInsert (m : MimeMap) (k : Str) (v : DesktopList) : MimeMap :=
  match m with
  | [] => [(k, v)]
  | (k1, v1) :: t =>
    if strLt k k1 then (k, v) :: (k1, v1) :: t
    else if k = k1 then (k, v) :: t
    else (k1, v1) :: mapInsert t k v

/-- `map.entry(k).or_default().push_back(h)`. -/
def mapPushBack (m : MimeMap) (k : Str) (h : Str) : MimeMap :=
  match m with
  | [] => [(k, [h])]
  | (k1, v1) :: t =>
    if strLt k k1 then (k, [h]) :: (k1, v1) :: t
    else if k = k1 then (k1, v1 ++ [h]) :: t
    else (k1, v1) :: mapPushBack t k h

/-- `BTreeMap::remove`: returns the removed value, if any. -/
def mapRemove (m : MimeMap) (k : Str) : Option DesktopList × MimeMap :=
  match m with
  | [] => (none, [])
  | (k1, v1) :: t =>
    if k = k1 then (some v1, t)
    else
      let r := mapRemove t k
      (r.1, (k1, v1) :: r.2)

/-- `BTreeMap::retain` with the predicate `!handlers.is_empty()`. -/
def mapRetainNonEmpty (m : MimeMap) : MimeMap :=
  m.filter (fun p => !p.2.isEmpty)

/-- The user's persisted preferences (`MimeApps`). -/
structure MimeApps where
  addedAssociations : MimeMap
  defaultApps : MimeMap
  deriving DecidableEq, Repr

/-- A parsed desktop entry file (`DesktopEntry`). -/
structure DesktopEntry where
  name : Str
  exec : Str
  fileName : Str
  terminal : Bool
  mimeType : List Str
  categories : List Str
  deriving DecidableEq, Repr

/-- The tool's configuration file (`ConfigFile`), restricted to the
fields the embedded operations read. -/
structure ConfigFile where
  enableSelector : Bool
  selector : Str
  termExecArgs : Option Str
  expandWildcards : Bool
  deriving DecidableEq, Repr

/-- The system catalog (`SystemApps`). -/
structure SystemApps where
  associations : MimeMap
  unassociated : DesktopList
  deriving DecidableEq, Repr

/-- The resolver context (`Config` in `main_config.rs`). -/
structure Config where
  mimeApps : MimeApps
  systemApps : SystemApps
  config : ConfigFile
  terminalOutput : Bool
  deriving DecidableEq, Repr

/-! ## MIME strings and handler tokens -/

/-- Characters `mime::Mime` accepts in a type or subtype token (the
subset relevant here; all lowercase ASCII, so parsing and printing a
key are mutually inverse and `BTreeMap` order is byte order). -/
def mimeChar (c : Char) : Bool :=
  (c.isLower || c.isDigit) || (c = '-' || c = '+' || c = '.' || c = '_' || c = '*' || c = '?')

/-- Validity of a MIME string: `type/subtype` with both parts nonempty
and made of `mimeChar`s. -/
def mimeValid (s : Str) : Bool :=
  match splitChar '/' s with
  | [t, sub] => !t.isEmpty && !sub.isEmpty && (t ++ sub).all mimeChar
  | _ => false

/-- Model of `Mime::from_str` followed by `to_string`: on the canonical
(lowercase) strings described by `mimeValid` the round trip is the
identity, so a `Mime` value is represented by its string. -/
def mimeFromStr (s : Str) : Except Err Str :=
  if mimeValid s then .ok s else .error (.badMimeType s)

/-- Model of `DesktopHandler::from_str` (`DesktopHandler::resolve`): the
name resolves against the installed desktop files, abstracted by the
`valid` predicate; an unresolvable name is an error. -/
def handlerFromStr (valid : Str → Bool) (s : Str) : Except Err Str :=
  if valid s then .ok s else .error (.notFound s)

/-- `DesktopHandler::from_str` mapped over a token list with
`collect::<Result<_>>()`: the first error aborts. -/
def handlersFromTokens (valid : Str → Bool) : List Str → Except Err (List Str)
  | [] => .ok []
  | t :: ts =>
    match handlerFromStr valid t with
    | .error e => .error e
    | .ok h =>
      match handlersFromTokens valid ts with
      | .error e => .error e
      | .ok hs => .ok (h :: hs)

/-- `DesktopList::from_str` (`src/apps/user.rs:51`): split on `;`, drop
empty segments, deduplicate keeping first occurrences, then parse each
token as a `DesktopHandler`, propagating the first failure. -/
def desktopListFromStr (valid : Str → Bool) (s : Str) : Except Err DesktopList :=
  handlersFromTokens valid
    (uniqueFirst ((splitChar ';' s).filter (fun t => !t.isEmpty)))

/-- `Display for DesktopList`: handlers joined by `;` plus a trailing
`;`. -/
def displayDesktopList (l : DesktopList) : Str :=
  joinSep ';' l ++ [';']

/-! ## The MIME registry (`src/common/db.rs`) -/

/-- The four handcrafted registry entries (`CUSTOM_MIMES`). -/
def customMimes : List Str :=
  ["inode/directory".data, "x-scheme-handler/http".data,
   "x-scheme-handler/https".data, "x-scheme-handler/terminal".data]

/-- `mime_types()`: the custom entries followed by the `mime_db::TYPES`
table, the latter passed in as `db`. -/
def mimeTypes (db : List Str) : List Str :=
  customMimes ++ db

/-! ## MimeApps operations (`src/apps/user.rs`) -/

namespace MimeApps

/-- The fan-out loop of `add_handler` under wildcard expansion: for each
matched registry entry, re-parse it as a `Mime` (propagating failure)
and append the handler at that key. -/
def addFan (h : Str) : MimeApps → List Str → Except Err MimeApps
  | st, [] => .ok st
  | st, r :: rs =>
    match mimeFromStr r with
    | .error e => .error e
    | .ok k => addFan h { st with defaultApps := mapPushBack st.defaultApps k h } rs

/-- `MimeApps::add_handler` (`src/apps/user.rs:73`). -/
def addHandler (db : List Str) (st : MimeApps) (mime h : Str)
    (expandWildcards : Bool) : Except Err MimeApps :=
  if expandWildcards then
    addFan h st ((mimeTypes db).filter (fun r => wildMatch mime r))
  else
    .ok { st with defaultApps := mapPushBack st.defaultApps mime h }

/-- The fan-out loop of `set_handler` under wildcard expansion. -/
def setFan (h : Str) : MimeApps → List Str → Except Err MimeApps
  | st, [] => .ok st
  | st, r :: rs =>
    match mimeFromStr r with
    | .error e => .error e
    | .ok k => setFan h { st with defaultApps := mapInsert st.defaultApps k [h] } rs

/-- `MimeApps::set_handler` (`src/apps/user.rs:101`). -/
def setHandler (db : List Str) (st : MimeApps) (mime h : Str)
    (expandWildcards : Bool) : Except Err MimeApps :=
  if expandWildcards then
    setFan h st ((mimeTypes db).filter (fun r => wildMatch mime r))
  else
    .ok { st with defaultApps := mapInsert st.defaultApps mime [h] }

/-- `MimeApps::unset_handler` (`src/apps/user.rs:129`). -/
def unsetHandler (st : MimeApps) (mime : Str) : Option DesktopList × MimeApps :=
  let r := mapRemove st.defaultApps mime
  (r.1, { st with defaultApps := r.2 })

/-- `MimeApps::remove_handler` (`src/apps/user.rs:134`).  Note that
`entry(mime).or_default()` materialises an empty list when the key is
absent, so the key is present in the resulting map either way. -/
def removeHandler (st : MimeApps) (mime h : Str) : Option Str × MimeApps :=
  let cur := (mapGet st.defaultApps mime).getD []
  match cur.findIdx? (fun x => x = h) with
  | some i =>
    (cur.get? i, { st with defaultApps := mapInsert st.defaultApps mime (cur.eraseIdx i) })
  | none => (none, { st with defaultApps := mapInsert st.defaultApps mime cur })

/-- `Iterator::max` on a list of numbers. -/
def listMax : List Nat → Option Nat
  | [] => none
  | a :: t => some (t.foldl Nat.max a)

/-- `MimeApps::get_from_wildcard` (`src/apps/user.rs:148`): among the
entries whose key glob-matches `mime`, keep those whose key length is
maximal and take the first (in key order). -/
def getFromWildcard (st : MimeApps) (mime : Str) : Option DesktopList :=
  let assoc := st.defaultApps.filter (fun p => wildMatch p.1 mime)
  match listMax (assoc.map (fun p => p.1.length)) with
  | none => none
  | some big => ((assoc.filter (fun p => p.1.length = big)).head?).map (fun p => p.2)

end MimeApps

/-- `select` (`src/apps/user.rs:289`): tokenize the selector command
(failing with `BadCmd`), run it feeding the candidate names
newline-joined on stdin (the process is abstracted by `run`, mapping
stdin contents to stdout contents; the source would panic if the token
list were empty, before any output is read), trim trailing whitespace
from stdout; an empty result is `Cancelled`. -/
def select (run : Str → Str) (selector : Str) (opts : List Str) : Except Err Str :=
  match shlexSplit selector with
  | none => .error (.badCmd selector)
  | some _ =>
    let out := trimEnd (run (joinSep '\n' opts))
    if out.isEmpty then .error .cancelled else .ok out

namespace MimeApps

/-- The handler preparation step of `get_handler_from_user`: pair each
handler with its desktop-entry name, silently dropping handlers whose
entry does not resolve (the `flat_map` over `Result`). -/
def pairNames (entries : Str → Option DesktopEntry) (hs : DesktopList) :
    List (Str × Str) :=
  hs.filterMap (fun h => (entries h).map (fun e => (h, e.name)))

/-- The `Some(handlers)` arm of `get_handler_from_user`: prepare the
name pairs, then either ask the selector or take the first. -/
def resolveList (entries : Str → Option DesktopEntry) (run : Str → Str)
    (cfg : ConfigFile) (mime : Str) (hs : DesktopList) : Except Err Str :=
  let err := Err.notFound mime
  let handlers := pairNames entries hs
  if cfg.enableSelector && handlers.length > 1 then
    match select run cfg.selector (handlers.map (fun p => p.2)) with
    | .error e => .error e
    | .ok name =>
      match handlers.find? (fun p => p.2 = name) with
      | some p => .ok p.1
      | none => .error err
  else
    match handlers.head? with
    | some p => .ok p.1
    | none => .error err

/-- `MimeApps::get_handler_from_user` (`src/apps/user.rs:175`): exact
lookup in `default_apps`, falling back to the wildcard lookup, then
`resolveList` on the found list; `NotFound` when neither lookup hits. -/
def getHandlerFromUser (entries : Str → Option DesktopEntry) (run : Str → Str)
    (st : MimeApps) (cfg : ConfigFile) (mime : Str) : Except Err Str :=
  match (mapGet st.defaultApps mime).orElse (fun _ => getFromWildcard st mime) with
  | some hs => resolveList entries run cfg mime hs
  | none => .error (.notFound mime)

end MimeApps

/-! ## SystemApps (`src/apps/system.rs`) -/

namespace SystemApps

/-- `SystemApps::get_handler`: front of the exact-key list. -/
def getHandler (sys : SystemApps) (mime : Str) : Option Str :=
  (mapGet sys.associations mime).bind (fun l => l.head?)

/-- `SystemApps::terminal_emulator`: first unassociated entry that
resolves and whose categories contain "TerminalEmulator". -/
def terminalEmulator (entries : Str → Option DesktopEntry) (sys : SystemApps) :
    Option DesktopEntry :=
  (sys.unassociated.filterMap entries).find?
    (fun e => "TerminalEmulator".data ∈ e.categories)

end SystemApps

/-! ## Config resolution (`src/config/main_config.rs`) -/

namespace Config

/-- `Config::get_handler_from_added_associations`
(`main_config.rs:66`): if the mime has an entry in the added
associations, take its front; only when there is no entry at all is
`SystemApps` consulted; a missing result is `NotFound`. -/
def getHandlerFromAddedAssociations (c : Config) (mime : Str) : Except Err Str :=
  match mapGet c.mimeApps.addedAssociations mime with
  | some l =>
    match l.head? with
    | some h => .ok h
    | none => .error (.notFound mime)
  | none =>
    match c.systemApps.getHandler mime with
    | some h => .ok h
    | none => .error (.notFound mime)

/-- `Config::get_handler` (`main_config.rs:57`): user resolution first;
`Cancelled` propagates unchanged; any other error falls through to the
added associations (and from there possibly the system apps). -/
def getHandler (entries : Str → Option DesktopEntry) (run : Str → Str)
    (c : Config) (mime : Str) : Except Err Str :=
  match c.mimeApps.getHandlerFromUser entries run c.config mime with
  | .error .cancelled => .error .cancelled
  | .ok h => .ok h
  | .error _ => c.getHandlerFromAddedAssociations mime

/-- `Config::terminal` (`main_config.rs:188`): the entry of the
`x-scheme-handler/terminal` handler if resolvable, else a system
terminal emulator; its exec string gets the configured
`term_exec_args` appended after a space. -/
def terminal (entries : Str → Option DesktopEntry) (run : Str → Str)
    (c : Config) : Except Err Str :=
  let viaHandler : Option DesktopEntry :=
    match getHandler entries run c "x-scheme-handler/terminal".data with
    | .ok h => entries h
    | .error _ => none
  match viaHandler.orElse (fun _ => c.systemApps.terminalEmulator entries) with
  | some e =>
    .ok (e.exec ++ match c.config.termExecArgs with
      | some opts => ' ' :: opts
      | none => [])
  | none => .error .noTerminal

end Config

/-! ## Exec templating (`src/common/desktop_entry.rs`) -/

/-- The four placeholder tokens. -/
def specialLits : List Str :=
  ["%f".data, "%F".data, "%u".data, "%U".data]

/-- The per-token substitution of `get_cmd`'s `flat_map`: a token that
is exactly a placeholder becomes the argument list; a token containing
a placeholder has every occurrence replaced by the space-joined
arguments; any other token is kept. -/
def substToken (args : List Str) (s : Str) : List Str :=
  if s ∈ specialLits then args
  else if containsSpecial s then [replaceSpecial (joinSep ' ' args) s]
  else [s]

/-- `List.flatMap`, spelled out for easy induction. -/
def listFlat (f : α → List β) : List α → List β
  | [] => []
  | a :: t => f a ++ listFlat f t

namespace DesktopEntry

/-- The placeholder-expansion phase of `get_cmd`
(`desktop_entry.rs:107`): if the raw exec string matches a
placeholder, substitute per token, otherwise append the arguments. -/
def expandTokens (e : DesktopEntry) (args : List Str) (toks : List Str) : List Str :=
  if containsSpecial e.exec then listFlat (substToken args) toks
  else toks ++ args

/-- `DesktopEntry::get_cmd` (`desktop_entry.rs:90`), returning the full
token list (the source finally splits it into program and arguments
with `exec.remove(0)`, which panics on an empty list): tokenize the
exec template (failing with `BadExec`), expand placeholders, and when
the entry wants a terminal but stdout is not one, prepend the tokenized
terminal command (failing with `BadCmd` when it does not tokenize). -/
def getCmd (entries : Str → Option DesktopEntry) (run : Str → Str)
    (c : Config) (e : DesktopEntry) (args : List Str) : Except Err (List Str) :=
  match shlexSplit e.exec with
  | none => .error (.badExec e.exec e.fileName)
  | some toks =>
    let expanded := e.expandTokens args toks
    if e.terminal && !c.terminalOutput then
      match c.terminal entries run with
      | .error er => .error er
      | .ok termCmd =>
        match shlexSplit termCmd with
        | none => .error (.badCmd termCmd)
        | some ttoks => .ok (ttoks ++ expanded)
    else .ok expanded

end DesktopEntry

/-! ## Association file reading and writing (`src/apps/user.rs:247`)

The file is represented by its list of lines.  `serde_ini` writes each
line `key=value` (CRLF-terminated, which the line representation
abstracts) and reads by classifying each line as a `[section]` header
or a `key=value` pair split at the first `=`.  Unknown sections and
top-level keys deserialize into ignored fields; a duplicated known
section is a duplicate-field error; keys inside a known section go
through `Mime::from_str` and `DesktopList::from_str`, whose errors fail
the whole read. -/

/-- Split a line at the first occurrence of `c`. -/
def splitFirst (c : Char) : Str → Option (Str × Str)
  | [] => none
  | x :: xs =>
    if x = c then some ([], xs)
    else (splitFirst c xs).map (fun p => (x :: p.1, p.2))

/-- Which section the INI reader is currently in. -/
inductive IniSec
  | top
  | added
  | defaults
  | other
  deriving DecidableEq, Repr

/-- Reader state: current section, whether each known section was
already seen, and the two maps built so far. -/
structure PState where
  sec : IniSec
  seenAdded : Bool
  seenDefaults : Bool
  added : MimeMap
  defaults : MimeMap
  deriving DecidableEq, Repr

/-- The `[Added Associations]` header line. -/
def addedHeader : Str := "[Added Associations]".data

/-- The `[Default Applications]` header line. -/
def defaultsHeader : Str := "[Default Applications]".data

/-- Process one line of the association file. -/
def parseStep (valid : Str → Bool) (st : PState) (line : Str) : Except Err PState :=
  if line.isEmpty then .ok st
  else if line.head? = some '[' ∧ line.getLast? = some ']' then
    let name := (line.drop 1).dropLast
    if name = "Added Associations".data then
      if st.seenAdded then .error (.deserialize line)
      else .ok { st with sec := .added, seenAdded := true }
    else if name = "Default Applications".data then
      if st.seenDefaults then .error (.deserialize line)
      else .ok { st with sec := .defaults, seenDefaults := true }
    else .ok { st with sec := .other }
  else
    match splitFirst '=' line with
    | none => .error (.deserialize line)
    | some (k, v) =>
      match st.sec with
      | .added =>
        match mimeFromStr k with
        | .error e => .error e
        | .ok key =>
          match desktopListFromStr valid v with
          | .error e => .error e
          | .ok hs => .ok { st with added := mapInsert st.added key hs }
      | .defaults =>
        match mimeFromStr k with
        | .error e => .error e
        | .ok key =>
          match desktopListFromStr valid v with
          | .error e => .error e
          | .ok hs => .ok { st with defaults := mapInsert st.defaults key hs }
      | .top => .ok st
      | .other => .ok st

/-- Fold `parseStep` over the lines. -/
def parseAll (valid : Str → Bool) : PState → List Str → Except Err PState
  | st, [] => .ok st
  | st, l :: ls =>
    match parseStep valid st l with
    | .error e => .error e
    | .ok st2 => parseAll valid st2 ls

namespace MimeApps

/-- `MimeApps::read_from` (`src/apps/user.rs:249`): deserialize, then
drop the `default_apps` entries whose handler list is empty. -/
def readFrom (valid : Str → Bool) (lines : List Str) : Except Err MimeApps :=
  match parseAll valid ⟨.top, false, false, [], []⟩ lines with
  | .error e => .error e
  | .ok st =>
    .ok { addedAssociations := st.added, defaultApps := mapRetainNonEmpty st.defaults }

/-- The `key=value` line for one entry. -/
def kvLine (p : Str × DesktopList) : Str :=
  p.1 ++ '=' :: displayDesktopList p.2

/-- `MimeApps::save_to` (`src/apps/user.rs:279`): drop empty
`default_apps` entries, then serialize; a section with no entries is
omitted entirely. -/
def saveTo (m : MimeApps) : List Str :=
  let d := mapRetainNonEmpty m.defaultApps
  (if m.addedAssociations.isEmpty then []
   else addedHeader :: m.addedAssociations.map kvLine)
    ++ (if d.isEmpty then [] else defaultsHeader :: d.map kvLine)

end MimeApps

/-! ## Auxiliary definitions: proof-infrastructure folds, well-formedness
predicates, and the concrete sample data used by the witnesses -/

/-- Keys strictly increasing, as `BTreeMap` iteration guarantees. -/
abbrev mapWF (m : MimeMap) : Prop :=
  m.Pairwise (fun p q => strLt p.1 q.1 = true)

/-- A selector process model that always answers `mpv`. -/
def runNone : Str → Str := fun _ => []

/-- A desktop-file environment with a few sample applications. -/
def sampleEntries : Str → Option DesktopEntry := fun h =>
  if h = "mpv.desktop".data then
    some { name := "mpv".data, exec := "mpv -- %U".data,
           fileName := "mpv.desktop".data, terminal := false,
           mimeType := [], categories := [] }
  else if h = "brave.desktop".data then
    some { name := "Brave".data, exec := "brave %U".data,
           fileName := "brave.desktop".data, terminal := false,
           mimeType := [], categories := [] }
  else if h = "nvim.desktop".data then
    some { name := "Neovim".data, exec := "nvim %F".data,
           fileName := "nvim.desktop".data, terminal := true,
           mimeType := [], categories := [] }
  else if h = "helix.desktop".data then
    some { name := "Helix".data, exec := "hx %F".data,
           fileName := "helix.desktop".data, terminal := true,
           mimeType := [], categories := [] }
  else if h = "xterm.desktop".data then
    some { name := "XTerm".data, exec := "xterm".data,
           fileName := "xterm.desktop".data, terminal := false,
           mimeType := [], categories := ["TerminalEmulator".data] }
  else none

/-- A configuration-file value with the selector disabled. -/
def plainConfigFile : ConfigFile :=
  { enableSelector := false, selector := "rofi -dmenu".data,
    termExecArgs := some "-e".data, expandWildcards := false }

/-- A store whose added associations hold an empty entry for
`text/plain` while the system catalog knows a handler for it. -/
def addedEmptyConfig : Config :=
  { mimeApps := ⟨[("text/plain".data, [])], []⟩,
    systemApps := ⟨[("text/plain".data, ["nvim.desktop".data])], []⟩,
    config := plainConfigFile,
    terminalOutput := true }

/-- All handler tokens stored in a map are nonempty and resolvable. -/
def goodLists (valid : Str → Bool) (m : MimeMap) : Prop :=
  ∀ p ∈ m, ∀ h ∈ p.2, h ≠ [] ∧ valid h = true

/-- A one-handler resolvability environment for the C5 witness. -/
def validX : Str → Bool := fun h => h = "x.desktop".data

/-- A configuration-file value with the selector enabled. -/
def selConfigFile : ConfigFile :=
  { enableSelector := true, selector := "rofi -dmenu".data,
    termExecArgs := some "-e".data, expandWildcards := false }

/-- A selector process model that answers `Brave` with a trailing
newline, whatever it is fed. -/
def runBrave : Str → Str := fun _ => "Brave\n".data

/-- The map produced by the `add_handler` fan-out, as a pure fold. -/
def foldPush (h : Str) (m0 : MimeMap) (rs : List Str) : MimeMap :=
  rs.foldl (fun m r => mapPushBack m r h) m0

/-- The map produced by the `set_handler` fan-out, as a pure fold. -/
def foldSet (h : Str) (m0 : MimeMap) (rs : List Str) : MimeMap :=
  rs.foldl (fun m r => mapInsert m r [h]) m0

/-- Specification-side reading of "the template contains a placeholder":
one of `%f`, `%F`, `%u`, `%U` occurs as a substring, checked position by
position with `containsSub` rather than by the Aho-Corasick scan. -/
def hasPlaceholder (s : Str) : Bool :=
  containsSub "%f".data s || containsSub "%F".data s ||
    containsSub "%u".data s || containsSub "%U".data s

/-- Specification-side per-token substitution of the amended claim: a
token that is exactly a placeholder becomes the argument list; a token
containing a placeholder has its first occurrence replaced by the
space-joined arguments (replacement stops after the first match, the
remainder of the token is kept verbatim); any other token is kept. -/
def claimSubst (args : List Str) (s : Str) : List Str :=
  if s = "%f".data ∨ s = "%F".data ∨ s = "%u".data ∨ s = "%U".data then args
  else if hasPlaceholder s then [replaceSpecial (joinSep ' ' args) s]
  else [s]

/-- Per-token substitution as the original claim words it: a token
containing a placeholder has every occurrence replaced.  Refuted by
the counterexample below. -/
def claimSubstEvery (args : List Str) (s : Str) : List Str :=
  if s = "%f".data ∨ s = "%F".data ∨ s = "%u".data ∨ s = "%U".data then args
  else if hasPlaceholder s then [replaceAllSpecial (joinSep ' ' args) s]
  else [s]

/-- A resolver context with empty stores, used where the configuration
is irrelevant. -/
def plainConfig : Config :=
  { mimeApps := ⟨[], []⟩, systemApps := ⟨[], []⟩,
    config := plainConfigFile, terminalOutput := true }

/-- The cmus desktop entry of the spec's scenario. -/
def cmusEntry : DesktopEntry :=
  { name := "cmus".data, exec := "cmus-remote -q %f".data,
    fileName := "cmus.desktop".data, terminal := true,
    mimeType := [], categories := [] }

/-- A resolver context whose terminal handler is `xterm.desktop` and
whose stdout is not a terminal. -/
def termConfig : Config :=
  { mimeApps := ⟨[], [("x-scheme-handler/terminal".data, ["xterm.desktop".data])]⟩,
    systemApps := ⟨[], []⟩,
    config := plainConfigFile,
    terminalOutput := false }

/-- Characters allowed in a handler token by the well-formedness
predicate: enough for real desktop-file names, and excluding the
delimiters (`;`, `=`, brackets, whitespace) that would disturb the
serialized form. -/
def handlerChar (c : Char) : Bool :=
  c.isAlphanum || (c = '-' || c = '_' || c = '.' || c = '+' || c = '@')

/-- A well-formed handler token. -/
def handlerGood (h : Str) : Bool :=
  !h.isEmpty && h.all handlerChar

/-- All the well-formedness facts about one association entry. -/
def goodMap (valid : Str → Bool) (m : MimeMap) : Prop :=
  mapWF m ∧ ∀ p ∈ m, mimeValid p.1 = true ∧ p.2 ≠ [] ∧ p.2.Nodup ∧
    ∀ h ∈ p.2, handlerGood h = true ∧ valid h = true

/-- A well-formed association file: the canonical serialization of a
pair of good maps — the optional `[Added Associations]` section then
the optional `[Default Applications]` section, each with sorted valid
MIME keys and canonical semicolon-terminated handler lists whose
entries are nonempty, duplicate-free and resolvable. -/
def wellFormedAssocFile (valid : Str → Bool) (f : List Str) : Prop :=
  ∃ a d : MimeMap, goodMap valid a ∧ goodMap valid d ∧
    f = MimeApps.saveTo ⟨a, d⟩

/-! ## The key order -/

theorem strLt_irrefl (s : Str) : strLt s s = false := by
  induction s with
  | nil => rfl
  | cons c t ih => simp [strLt, ih]

theorem strLt_ne {a b : Str} (h : strLt a b = true) : a ≠ b := by
  intro he
  subst he
  rw [strLt_irrefl] at h
  exact Bool.noConfusion h

theorem strLt_trans : ∀ {a b c : Str},
    strLt a b = true → strLt b c = true → strLt a c = true := by
  intro a
  induction a with
  | nil =>
    intro b c hab hbc
    cases b with
    | nil => simp [strLt] at hab
    | cons y ys =>
      cases c with
      | nil => simp [strLt] at hbc
      | cons z zs => simp [strLt]
  | cons x xs ih =>
    intro b c hab hbc
    cases b with
    | nil => simp [strLt] at hab
    | cons y ys =>
      cases c with
      | nil => simp [strLt] at hbc
      | cons z zs =>
        simp [strLt] at hab hbc ⊢
        rcases hab with hxy | ⟨hxy, hxs⟩
        · rcases hbc with hyz | ⟨hyz, _⟩
          · exact Or.inl (lt_trans hxy hyz)
          · exact Or.inl (hyz ▸ hxy)
        · rcases hbc with hyz | ⟨hyz, hys⟩
          · exact Or.inl (hxy ▸ hyz)
          · exact Or.inr ⟨hxy.trans hyz, ih hxs hys⟩

theorem strLt_asymm {a b : Str} (h : strLt a b = true) : strLt b a = false := by
  cases hba : strLt b a with
  | false => rfl
  | true =>
    have : strLt a a = true := strLt_trans h hba
    rw [strLt_irrefl] at this
    exact Bool.noConfusion this

theorem strLt_total : ∀ {a b : Str}, a ≠ b →
    strLt a b = true ∨ strLt b a = true := by
  intro a
  induction a with
  | nil =>
    intro b hne
    cases b with
    | nil => exact absurd rfl hne
    | cons y ys => exact Or.inl (by simp [strLt])
  | cons x xs ih =>
    intro b hne
    cases b with
    | nil => exact Or.inr (by simp [strLt])
    | cons y ys =>
      rcases lt_trichotomy x y with hlt | heq | hgt
      · exact Or.inl (by simp [strLt, hlt])
      · subst heq
        have hne2 : xs ≠ ys := by
          intro h2
          exact hne (by rw [h2])
        rcases ih hne2 with h2 | h2
        · exact Or.inl (by simp [strLt, h2])
        · exact Or.inr (by simp [strLt, h2])
      · exact Or.inr (by simp [strLt, hgt])

/-! ## Map lemmas

`mapWF` is the invariant every map holds in the program: a `BTreeMap`
iterates its entries in strictly increasing key order. -/

theorem mapGet_eq_none_of_forall_ne {m : MimeMap} {k : Str}
    (h : ∀ p ∈ m, p.1 ≠ k) : mapGet m k = none := by
  induction m with
  | nil => rfl
  | cons p t ih =>
    have hp : p.1 ≠ k := h p (List.mem_cons_self p t)
    have hpe : (p.1 = k) = False := eq_false hp
    simp only [mapGet, List.find?, hpe, decide_False]
    exact ih (fun q hq => h q (List.mem_cons_of_mem p hq))

theorem mapGet_mapInsert_self (m : MimeMap) (k : Str) (v : DesktopList) :
    mapGet (mapInsert m k v) k = some v := by
  induction m with
  | nil => simp [mapInsert, mapGet, List.find?]
  | cons p t ih =>
    obtain ⟨k1, v1⟩ := p
    by_cases hlt : strLt k k1
    · simp [mapInsert, hlt, mapGet, List.find?]
    · by_cases heq : k = k1
      · subst heq
        simp [mapInsert, hlt, mapGet, List.find?]
      · have hne : (k1 = k) = False := eq_false (fun hh => heq hh.symm)
        simp [mapInsert, hlt, heq, mapGet, List.find?, hne] at ih ⊢
        exact ih

theorem mapGet_mapInsert_ne (m : MimeMap) (k k2 : Str) (v : DesktopList)
    (h : k2 ≠ k) : mapGet (mapInsert m k v) k2 = mapGet m k2 := by
  have hkk : (k = k2) = False := eq_false (fun hh => h hh.symm)
  induction m with
  | nil => simp [mapInsert, mapGet, List.find?, hkk]
  | cons p t ih =>
    obtain ⟨k1, v1⟩ := p
    by_cases hlt : strLt k k1
    · simp [mapInsert, hlt, mapGet, List.find?, hkk]
    · by_cases heq : k = k1
      · subst heq
        simp [mapInsert, hlt, mapGet, List.find?, hkk]
      · simp only [mapInsert, hlt, heq, if_false]
        by_cases h1 : k1 = k2
        · simp [mapGet, List.find?, h1]
        · simp [mapGet, List.find?, h1] at ih ⊢
          exact ih

theorem mapGet_mapPushBack_self (m : MimeMap) (k h : Str) (hwf : mapWF m) :
    mapGet (mapPushBack m k h) k = some ((mapGet m k).getD [] ++ [h]) := by
  induction m with
  | nil => simp [mapPushBack, mapGet, List.find?]
  | cons p t ih =>
    obtain ⟨k1, v1⟩ := p
    rw [mapWF, List.pairwise_cons] at hwf
    obtain ⟨hhead, htail⟩ := hwf
    by_cases hlt : strLt k k1
    · have hall : ∀ p ∈ (k1, v1) :: t, p.1 ≠ k := by
        intro q hq
        rcases List.mem_cons.mp hq with hq1 | hq2
        · rw [hq1]
          exact fun hh => (strLt_ne hlt) hh.symm
        · have : strLt k q.1 = true := strLt_trans hlt (hhead q hq2)
          exact fun hh => (strLt_ne this) hh.symm
      have hfind : List.find? (fun p => decide (p.1 = k)) t = none := by
        rw [List.find?_eq_none]
        intro x hx
        simp only [decide_eq_true_eq]
        exact hall x (List.mem_cons_of_mem _ hx)
      have hk1 : (k1 = k) = False := eq_false (hall (k1, v1) (List.mem_cons_self _ _))
      simp [mapPushBack, hlt, mapGet, List.find?, hk1, hfind]
    · by_cases heq : k = k1
      · subst heq
        simp [mapPushBack, hlt, mapGet, List.find?]
      · have hne : (k1 = k) = False := eq_false (fun hh => heq hh.symm)
        simp [mapPushBack, hlt, heq, mapGet, List.find?, hne] at ih ⊢
        exact ih htail

theorem mapGet_mapPushBack_ne (m : MimeMap) (k k2 h : Str)
    (hne : k2 ≠ k) : mapGet (mapPushBack m k h) k2 = mapGet m k2 := by
  have hkk : (k = k2) = False := eq_false (fun hh => hne hh.symm)
  induction m with
  | nil => simp [mapPushBack, mapGet, List.find?, hkk]
  | cons p t ih =>
    obtain ⟨k1, v1⟩ := p
    by_cases hlt : strLt k k1
    · simp [mapPushBack, hlt, mapGet, List.find?, hkk]
    · by_cases heq : k = k1
      · subst heq
        simp [mapPushBack, hlt, mapGet, List.find?, hkk]
      · simp only [mapPushBack, hlt, heq, if_false]
        by_cases h1 : k1 = k2
        · simp [mapGet, List.find?, h1]
        · simp [mapGet, List.find?, h1] at ih ⊢
          exact ih

theorem mapPushBack_keys {m : MimeMap} {k h : Str} :
    ∀ p ∈ mapPushBack m k h, p.1 = k ∨ ∃ q ∈ m, q.1 = p.1 := by
  induction m with
  | nil =>
    intro p hp
    simp [mapPushBack] at hp
    exact Or.inl (by rw [hp])
  | cons q t ih =>
    obtain ⟨k1, v1⟩ := q
    intro p hp
    by_cases hlt : strLt k k1
    · simp only [mapPushBack, hlt, if_true] at hp
      rcases List.mem_cons.mp hp with h1 | h2
      · exact Or.inl (by rw [h1])
      · exact Or.inr ⟨p, h2, rfl⟩
    · by_cases heq : k = k1
      · subst heq
        simp only [mapPushBack, hlt, if_false, if_pos rfl] at hp
        rcases List.mem_cons.mp hp with h1 | h2
        · exact Or.inr ⟨(k, v1), List.mem_cons_self _ _, by rw [h1]⟩
        · exact Or.inr ⟨p, List.mem_cons_of_mem _ h2, rfl⟩
      · simp only [mapPushBack, hlt, heq, if_false] at hp
        rcases List.mem_cons.mp hp with h1 | h2
        · exact Or.inr ⟨(k1, v1), List.mem_cons_self _ _, by rw [h1]⟩
        · rcases ih p h2 with h3 | ⟨r, hr, hr2⟩
          · exact Or.inl h3
          · exact Or.inr ⟨r, List.mem_cons_of_mem _ hr, hr2⟩

theorem mapWF_mapPushBack (m : MimeMap) (k h : Str) (hwf : mapWF m) :
    mapWF (mapPushBack m k h) := by
  induction m with
  | nil => simp [mapPushBack, mapWF]
  | cons q t ih =>
    obtain ⟨k1, v1⟩ := q
    rw [mapWF, List.pairwise_cons] at hwf
    obtain ⟨hhead, htail⟩ := hwf
    by_cases hlt : strLt k k1
    · simp only [mapPushBack, hlt, if_true, mapWF, List.pairwise_cons]
      refine ⟨?_, ?_, htail⟩
      · intro p hp
        rcases List.mem_cons.mp hp with h1 | h2
        · rw [h1]
          exact hlt
        · exact strLt_trans hlt (hhead p h2)
      · exact hhead
    · by_cases heq : k = k1
      · subst heq
        simp only [mapPushBack, strLt_irrefl, Bool.false_eq_true, if_false,
          if_true, ite_true, if_pos rfl, mapWF, List.pairwise_cons]
        exact ⟨hhead, htail⟩
      · have hne : (k = k1) = False := eq_false heq
        simp only [mapPushBack, hlt, hne, if_false, Bool.false_eq_true,
          ite_false, mapWF, List.pairwise_cons]
        refine ⟨?_, ih htail⟩
        intro p hp
        rcases mapPushBack_keys p hp with h1 | ⟨r, hr, hr2⟩
        · rw [h1]
          rcases strLt_total heq with h2 | h2
          · exact absurd h2 hlt
          · exact h2
        · rw [← hr2]
          exact hhead r hr

theorem mapWF_key_inj {m : MimeMap} (hwf : mapWF m) :
    ∀ p ∈ m, ∀ q ∈ m, p.1 = q.1 → p = q := by
  induction m with
  | nil => intro p hp; cases hp
  | cons a t ih =>
    rw [mapWF, List.pairwise_cons] at hwf
    obtain ⟨hhead, htail⟩ := hwf
    intro p hp q hq hpq
    rcases List.mem_cons.mp hp with hp1 | hp2 <;>
      rcases List.mem_cons.mp hq with hq1 | hq2
    · rw [hp1, hq1]
    · subst hp1
      exact absurd (hpq ▸ hhead q hq2) (by rw [strLt_irrefl]; simp)
    · subst hq1
      exact absurd (hpq ▸ hhead p hp2).symm (by rw [strLt_irrefl]; simp)
    · exact ih htail p hp2 q hq2 hpq

/-! ## Lemmas about `Iterator::max` -/

theorem le_foldl_max (t : List Nat) : ∀ a : Nat, a ≤ t.foldl Nat.max a := by
  induction t with
  | nil => intro a; exact le_refl a
  | cons x t ih =>
    intro a
    exact le_trans (Nat.le_max_left a x) (ih (Nat.max a x))

theorem mem_le_foldl_max (t : List Nat) :
    ∀ (a x : Nat), x ∈ t → x ≤ t.foldl Nat.max a := by
  induction t with
  | nil => intro a x hx; cases hx
  | cons y t ih =>
    intro a x hx
    rcases List.mem_cons.mp hx with h1 | h2
    · subst h1
      exact le_trans (Nat.le_max_right a x) (le_foldl_max t (Nat.max a x))
    · exact ih (Nat.max a y) x h2

theorem foldl_max_le (t : List Nat) :
    ∀ (a M : Nat), a ≤ M → (∀ x ∈ t, x ≤ M) → t.foldl Nat.max a ≤ M := by
  induction t with
  | nil => intro a M ha _; exact ha
  | cons y t ih =>
    intro a M ha hall
    exact ih (Nat.max a y) M
      (Nat.max_le.mpr ⟨ha, hall y (List.mem_cons_self y t)⟩)
      (fun x hx => hall x (List.mem_cons_of_mem y hx))

theorem listMax_eq_of_mem_ub {l : List Nat} {M : Nat}
    (hmem : M ∈ l) (hub : ∀ x ∈ l, x ≤ M) : MimeApps.listMax l = some M := by
  cases l with
  | nil => cases hmem
  | cons a t =>
    have hle : t.foldl Nat.max a ≤ M :=
      foldl_max_le t a M (hub a (List.mem_cons_self a t))
        (fun x hx => hub x (List.mem_cons_of_mem a hx))
    have hge : M ≤ t.foldl Nat.max a := by
      rcases List.mem_cons.mp hmem with h1 | h2
      · subst h1
        exact le_foldl_max t M
      · exact mem_le_foldl_max t a M h2
    simp [MimeApps.listMax, Nat.le_antisymm hle hge]

theorem head?_of_all_eq {l : List (Str × DesktopList)} {v : Str × DesktopList}
    (hne : v ∈ l) (hall : ∀ x ∈ l, x = v) : l.head? = some v := by
  cases l with
  | nil => cases hne
  | cons a t =>
    simp [List.head?, hall a (List.mem_cons_self a t)]

/-! ## Sample data shared by the concrete witnesses -/

/-! ## C2: exact entries beat wildcard entries -/

/-- C2: if `default_apps` has an entry under the exact key `m`, then
`get_handler_from_user` resolves `m` from that entry's handler list:
the result is `resolveList` of the exact list, and it is insensitive to
everything else in the map — in particular to any wildcard entries —
since any two stores with the same exact entry resolve identically. -/
theorem user_resolution_exact_beats_wildcard
    (entries : Str → Option DesktopEntry) (run : Str → Str)
    (st1 st2 : MimeApps) (cfg : ConfigFile) (m : Str) (l : DesktopList)
    (h1 : mapGet st1.defaultApps m = some l)
    (h2 : mapGet st2.defaultApps m = some l) :
    st1.getHandlerFromUser entries run cfg m
      = MimeApps.resolveList entries run cfg m l ∧
    st1.getHandlerFromUser entries run cfg m
      = st2.getHandlerFromUser entries run cfg m := by
  constructor
  · simp [MimeApps.getHandlerFromUser, h1, Option.orElse]
  · simp [MimeApps.getHandlerFromUser, h1, h2, Option.orElse]

/-- Witness for C2, the spec's scenario: `video/*=mpv.desktop;` next to
`video/webm=brave.desktop;`; resolving `video/webm` uses the exact
entry (and equals resolution in a store without the wildcard). -/
theorem user_resolution_exact_beats_wildcard_witness :
    (mapGet [("video/*".data, ["mpv.desktop".data]),
        ("video/webm".data, ["brave.desktop".data])] "video/webm".data
      = some ["brave.desktop".data] ∧
     mapGet [("video/webm".data, ["brave.desktop".data])] "video/webm".data
      = some ["brave.desktop".data]) ∧
    MimeApps.getHandlerFromUser sampleEntries runNone
      ⟨[], [("video/*".data, ["mpv.desktop".data]),
            ("video/webm".data, ["brave.desktop".data])]⟩
      plainConfigFile "video/webm".data
      = MimeApps.resolveList sampleEntries runNone plainConfigFile
          "video/webm".data ["brave.desktop".data] ∧
    MimeApps.getHandlerFromUser sampleEntries runNone
      ⟨[], [("video/*".data, ["mpv.desktop".data]),
            ("video/webm".data, ["brave.desktop".data])]⟩
      plainConfigFile "video/webm".data
      = MimeApps.getHandlerFromUser sampleEntries runNone
          ⟨[], [("video/webm".data, ["brave.desktop".data])]⟩
          plainConfigFile "video/webm".data := by
  refine ⟨⟨by decide, by decide⟩, ?_⟩
  exact user_resolution_exact_beats_wildcard sampleEntries runNone
    ⟨[], [("video/*".data, ["mpv.desktop".data]),
          ("video/webm".data, ["brave.desktop".data])]⟩
    ⟨[], [("video/webm".data, ["brave.desktop".data])]⟩
    plainConfigFile "video/webm".data ["brave.desktop".data]
    (by decide) (by decide)

/-! ## C10: remove_handler on an absent key -/

/-- C10: when `mime` has no entry in `default_apps`, `remove_handler`
returns `None` yet leaves a new empty handler list under that key —
the map is changed for absent keys. -/
theorem remove_handler_absent_key_inserts_empty
    (st : MimeApps) (m h : Str)
    (habs : mapGet st.defaultApps m = none) :
    (st.removeHandler m h).1 = none ∧
    mapGet (st.removeHandler m h).2.defaultApps m = some [] := by
  constructor
  · simp [MimeApps.removeHandler, habs]
  · simp only [MimeApps.removeHandler, habs, Option.getD_none, List.findIdx?_nil]
    exact mapGet_mapInsert_self _ _ _

/-- Witness for C10: removing `nvim.desktop` for the absent key
`text/plain` returns `None` and materialises an empty entry. -/
theorem remove_handler_absent_key_inserts_empty_witness :
    mapGet (MimeApps.mk [] []).defaultApps "text/plain".data = none ∧
    ((MimeApps.mk [] []).removeHandler "text/plain".data "nvim.desktop".data).1 = none ∧
    mapGet ((MimeApps.mk [] []).removeHandler "text/plain".data
        "nvim.desktop".data).2.defaultApps "text/plain".data = some [] := by
  refine ⟨by decide, ?_⟩
  exact remove_handler_absent_key_inserts_empty (MimeApps.mk [] [])
    "text/plain".data "nvim.desktop".data (by decide)

/-! ## C3: among matching wildcard keys, the longest key string wins -/

/-- C3: if `m` has no exact entry while the well-formed map has an
entry `(k, l)` whose key glob-matches `m` and every other matching key
is strictly shorter, then the wildcard lookup returns `l`. -/
theorem wildcard_longest_key_wins (st : MimeApps) (m k : Str) (l : DesktopList)
    (hwf : mapWF st.defaultApps)
    (_hexact : mapGet st.defaultApps m = none)
    (hmem : (k, l) ∈ st.defaultApps)
    (hmatch : wildMatch k m = true)
    (hlong : ∀ p ∈ st.defaultApps, wildMatch p.1 m = true → p.1 ≠ k →
      p.1.length < k.length) :
    st.getFromWildcard m = some l := by
  have hmemA : (k, l) ∈ st.defaultApps.filter (fun p => wildMatch p.1 m) :=
    List.mem_filter.mpr ⟨hmem, by simp [hmatch]⟩
  have hub : ∀ x ∈ (st.defaultApps.filter (fun p => wildMatch p.1 m)).map
      (fun p => p.1.length), x ≤ k.length := by
    intro x hx
    rcases List.mem_map.mp hx with ⟨p, hp, rfl⟩
    obtain ⟨hpm, hpw⟩ := List.mem_filter.mp hp
    rcases eq_or_ne p.1 k with he | hne
    · rw [he]
    · exact le_of_lt (hlong p hpm (by simpa using hpw) hne)
  have hmax : MimeApps.listMax
      ((st.defaultApps.filter (fun p => wildMatch p.1 m)).map
        (fun p => p.1.length)) = some k.length :=
    listMax_eq_of_mem_ub (List.mem_map.mpr ⟨(k, l), hmemA, rfl⟩) hub
  simp only [MimeApps.getFromWildcard, hmax]
  have hallEq : ∀ x ∈ (st.defaultApps.filter (fun p => wildMatch p.1 m)).filter
      (fun p => p.1.length = k.length), x = (k, l) := by
    intro p hp
    obtain ⟨hpA, hpl⟩ := List.mem_filter.mp hp
    obtain ⟨hpm, hpw⟩ := List.mem_filter.mp hpA
    have hlen : p.1.length = k.length := by simpa using hpl
    have hkey : p.1 = k := by
      by_contra hne
      exact absurd hlen (Nat.ne_of_lt (hlong p hpm (by simpa using hpw) hne))
    exact mapWF_key_inj hwf p hpm (k, l) hmem hkey
  have hmemF : (k, l) ∈ (st.defaultApps.filter (fun p => wildMatch p.1 m)).filter
      (fun p => p.1.length = k.length) :=
    List.mem_filter.mpr ⟨hmemA, by simp⟩
  rw [head?_of_all_eq hmemF hallEq]
  rfl

/-- Witness for C3: keys `video/*` and `video/w*` both match
`video/webm`; the longer key `video/w*` supplies the handler list. -/
theorem wildcard_longest_key_wins_witness :
    (mapGet [("video/*".data, ["mpv.desktop".data]),
        ("video/w*".data, ["brave.desktop".data])] "video/webm".data = none ∧
     wildMatch "video/w*".data "video/webm".data = true ∧
     wildMatch "video/*".data "video/webm".data = true) ∧
    MimeApps.getFromWildcard
      ⟨[], [("video/*".data, ["mpv.desktop".data]),
            ("video/w*".data, ["brave.desktop".data])]⟩
      "video/webm".data = some ["brave.desktop".data] := by
  refine ⟨⟨by decide, by decide, by decide⟩, ?_⟩
  exact wildcard_longest_key_wins
    ⟨[], [("video/*".data, ["mpv.desktop".data]),
          ("video/w*".data, ["brave.desktop".data])]⟩
    "video/webm".data "video/w*".data ["brave.desktop".data]
    (by decide) (by decide) (by decide) (by decide) (by decide)

/-! ## C4: the resolver fallback chain -/

/-- Counterexample to C4 as stated: user resolution fails (`NotFound`),
the added-associations entry for `text/plain` exists but is empty, and
`get_handler` returns `NotFound` even though a SystemApps exact lookup
would produce a handler — the chain does not fall through to SystemApps
on a failed added-associations lookup, only on a missing one. -/
theorem config_fallback_claim_counterexample :
    Config.getHandler sampleEntries runNone addedEmptyConfig "text/plain".data
      = .error (.notFound "text/plain".data) ∧
    SystemApps.getHandler addedEmptyConfig.systemApps "text/plain".data
      = some "nvim.desktop".data := by
  decide

/-- C4 (amended): `Config::get_handler` tries user resolution first; a
`Cancelled` error propagates immediately; an `Ok` is returned as is; any
other error falls through to the added associations, where a present
entry is decided by its front handler (`NotFound` when the entry is
empty, without consulting SystemApps) and only a missing entry falls
through to the SystemApps exact lookup. -/
theorem config_get_handler_fallback_chain
    (entries : Str → Option DesktopEntry) (run : Str → Str)
    (c : Config) (m : Str) :
    (c.mimeApps.getHandlerFromUser entries run c.config m = .error .cancelled →
      Config.getHandler entries run c m = .error .cancelled) ∧
    (∀ h, c.mimeApps.getHandlerFromUser entries run c.config m = .ok h →
      Config.getHandler entries run c m = .ok h) ∧
    (∀ e, c.mimeApps.getHandlerFromUser entries run c.config m = .error e →
      e ≠ .cancelled →
      Config.getHandler entries run c m = c.getHandlerFromAddedAssociations m) ∧
    (∀ l, mapGet c.mimeApps.addedAssociations m = some l →
      c.getHandlerFromAddedAssociations m
        = match l.head? with
          | some h => .ok h
          | none => .error (.notFound m)) ∧
    (mapGet c.mimeApps.addedAssociations m = none →
      c.getHandlerFromAddedAssociations m
        = match c.systemApps.getHandler m with
          | some h => .ok h
          | none => .error (.notFound m)) := by
  refine ⟨?_, ?_, ?_, ?_, ?_⟩
  · intro hres
    simp [Config.getHandler, hres]
  · intro h hres
    simp [Config.getHandler, hres]
  · intro e hres hne
    cases e <;> simp [Config.getHandler, hres]
    exact absurd rfl hne
  · intro l hget
    simp [Config.getHandlerFromAddedAssociations, hget]
  · intro hget
    simp [Config.getHandlerFromAddedAssociations, hget]

/-- Witness for the amended C4, at a configuration where user
resolution fails with `NotFound` and the added associations decide. -/
theorem config_get_handler_fallback_chain_witness :
    ((Config.mk ⟨[("text/plain".data, ["helix.desktop".data])], []⟩
        ⟨[], []⟩ plainConfigFile true).mimeApps.getHandlerFromUser
        sampleEntries runNone plainConfigFile "text/plain".data
      = .error (.notFound "text/plain".data)) ∧
    Config.getHandler sampleEntries runNone
      (Config.mk ⟨[("text/plain".data, ["helix.desktop".data])], []⟩
        ⟨[], []⟩ plainConfigFile true) "text/plain".data
      = (Config.mk ⟨[("text/plain".data, ["helix.desktop".data])], []⟩
        ⟨[], []⟩ plainConfigFile true).getHandlerFromAddedAssociations
          "text/plain".data := by
  refine ⟨by decide, ?_⟩
  exact (config_get_handler_fallback_chain sampleEntries runNone
    (Config.mk ⟨[("text/plain".data, ["helix.desktop".data])], []⟩
      ⟨[], []⟩ plainConfigFile true) "text/plain".data).2.2.1
    (.notFound "text/plain".data) (by decide) (by decide)

/-! ## C5: what reading tolerates and what it rejects -/

theorem mapInsert_mem {m : MimeMap} {k : Str} {v : DesktopList} :
    ∀ p ∈ mapInsert m k v, p = (k, v) ∨ p ∈ m := by
  induction m with
  | nil =>
    intro p hp
    simp [mapInsert] at hp
    exact Or.inl (by rw [hp])
  | cons q t ih =>
    obtain ⟨k1, v1⟩ := q
    intro p hp
    by_cases hlt : strLt k k1
    · simp only [mapInsert, hlt, if_true] at hp
      rcases List.mem_cons.mp hp with h1 | h2
      · exact Or.inl (by rw [h1])
      · exact Or.inr h2
    · by_cases heq : k = k1
      · subst heq
        simp only [mapInsert, hlt, if_false, if_pos rfl] at hp
        rcases List.mem_cons.mp hp with h1 | h2
        · exact Or.inl (by rw [h1])
        · exact Or.inr (List.mem_cons_of_mem _ h2)
      · simp only [mapInsert, hlt, heq, if_false] at hp
        rcases List.mem_cons.mp hp with h1 | h2
        · exact Or.inr (by rw [h1]; exact List.mem_cons_self _ _)
        · rcases ih p h2 with h3 | h4
          · exact Or.inl h3
          · exact Or.inr (List.mem_cons_of_mem _ h4)

theorem handlersFromTokens_ok {valid : Str → Bool} :
    ∀ {ts hs : List Str}, handlersFromTokens valid ts = .ok hs →
      hs = ts ∧ ∀ t ∈ ts, valid t = true := by
  intro ts
  induction ts with
  | nil =>
    intro hs h
    cases h
    exact ⟨rfl, by intro t ht; cases ht⟩
  | cons t ts ih =>
    intro hs h
    by_cases hv : valid t
    · simp only [handlersFromTokens, handlerFromStr, hv, if_true] at h
      cases hrec : handlersFromTokens valid ts with
      | error e => rw [hrec] at h; cases h
      | ok val =>
        rw [hrec] at h
        cases h
        obtain ⟨heq, hall⟩ := ih hrec
        refine ⟨by rw [heq], ?_⟩
        intro x hx
        rcases List.mem_cons.mp hx with h1 | h2
        · rw [h1]; exact hv
        · exact hall x h2
    · simp only [handlersFromTokens, handlerFromStr, hv, if_false] at h
      cases h

theorem uniqueFrom_mem : ∀ {l : List Str} {seen : List Str} {x : Str},
    x ∈ uniqueFrom seen l → x ∈ l := by
  intro l
  induction l with
  | nil => intro seen x hx; cases hx
  | cons y l ih =>
    intro seen x hx
    by_cases hy : y ∈ seen
    · simp only [uniqueFrom, hy, if_true] at hx
      exact List.mem_cons_of_mem _ (ih hx)
    · simp only [uniqueFrom, hy, if_false] at hx
      rcases List.mem_cons.mp hx with h1 | h2
      · rw [h1]; exact List.mem_cons_self _ _
      · exact List.mem_cons_of_mem _ (ih h2)

theorem desktopListFromStr_ok_mem {valid : Str → Bool} {s : Str} {hs : DesktopList}
    (h : desktopListFromStr valid s = .ok hs) :
    ∀ x ∈ hs, x ≠ [] ∧ valid x = true := by
  obtain ⟨heq, hall⟩ := handlersFromTokens_ok h
  intro x hx
  rw [heq] at hx
  have hx2 : x ∈ (splitChar ';' s).filter (fun t => !t.isEmpty) :=
    uniqueFrom_mem hx
  obtain ⟨_, hne⟩ := List.mem_filter.mp hx2
  refine ⟨?_, hall x hx⟩
  intro hxe
  rw [hxe] at hne
  simp at hne

theorem goodLists_mapInsert {valid : Str → Bool} {m : MimeMap} {k : Str}
    {v : DesktopList} (hm : goodLists valid m)
    (hv : ∀ h ∈ v, h ≠ [] ∧ valid h = true) :
    goodLists valid (mapInsert m k v) := by
  intro p hp
  rcases mapInsert_mem p hp with h1 | h2
  · rw [h1]; exact hv
  · exact hm p h2

theorem parseStep_good {valid : Str → Bool} {st st2 : PState} {line : Str}
    (ha : goodLists valid st.added) (hd : goodLists valid st.defaults)
    (hstep : parseStep valid st line = .ok st2) :
    goodLists valid st2.added ∧ goodLists valid st2.defaults := by
  unfold parseStep at hstep
  by_cases h1 : line.isEmpty
  · rw [if_pos h1] at hstep
    cases hstep
    exact ⟨ha, hd⟩
  · rw [if_neg h1] at hstep
    by_cases h2 : line.head? = some '[' ∧ line.getLast? = some ']'
    · rw [if_pos h2] at hstep
      by_cases h3 : (line.drop 1).dropLast = "Added Associations".data
      · rw [if_pos h3] at hstep
        by_cases h4 : st.seenAdded
        · rw [if_pos h4] at hstep; cases hstep
        · rw [if_neg h4] at hstep; cases hstep; exact ⟨ha, hd⟩
      · rw [if_neg h3] at hstep
        by_cases h5 : (line.drop 1).dropLast = "Default Applications".data
        · rw [if_pos h5] at hstep
          by_cases h6 : st.seenDefaults
          · rw [if_pos h6] at hstep; cases hstep
          · rw [if_neg h6] at hstep; cases hstep; exact ⟨ha, hd⟩
        · rw [if_neg h5] at hstep; cases hstep; exact ⟨ha, hd⟩
    · rw [if_neg h2] at hstep
      cases hsplit : splitFirst '=' line with
      | none => rw [hsplit] at hstep; cases hstep
      | some kv =>
        obtain ⟨k, v⟩ := kv
        rw [hsplit] at hstep
        cases hsec : st.sec with
        | top =>
          rw [hsec] at hstep
          cases hstep
          exact ⟨ha, hd⟩
        | other =>
          rw [hsec] at hstep
          cases hstep
          exact ⟨ha, hd⟩
        | added =>
          rw [hsec] at hstep
          dsimp only at hstep
          cases hm : mimeFromStr k with
          | error e => rw [hm] at hstep; cases hstep
          | ok key =>
            rw [hm] at hstep
            cases hl : desktopListFromStr valid v with
            | error e => rw [hl] at hstep; cases hstep
            | ok hs =>
              rw [hl] at hstep
              cases hstep
              exact ⟨goodLists_mapInsert ha (desktopListFromStr_ok_mem hl), hd⟩
        | defaults =>
          rw [hsec] at hstep
          dsimp only at hstep
          cases hm : mimeFromStr k with
          | error e => rw [hm] at hstep; cases hstep
          | ok key =>
            rw [hm] at hstep
            cases hl : desktopListFromStr valid v with
            | error e => rw [hl] at hstep; cases hstep
            | ok hs =>
              rw [hl] at hstep
              cases hstep
              exact ⟨ha, goodLists_mapInsert hd (desktopListFromStr_ok_mem hl)⟩

theorem parseAll_good {valid : Str → Bool} :
    ∀ {lines : List Str} {st st2 : PState},
      goodLists valid st.added → goodLists valid st.defaults →
      parseAll valid st lines = .ok st2 →
      goodLists valid st2.added ∧ goodLists valid st2.defaults := by
  intro lines
  induction lines with
  | nil =>
    intro st st2 ha hd h
    cases h
    exact ⟨ha, hd⟩
  | cons l ls ih =>
    intro st st2 ha hd h
    unfold parseAll at h
    cases hstep : parseStep valid st l with
    | error e => rw [hstep] at h; cases h
    | ok stm =>
      rw [hstep] at h
      obtain ⟨ha2, hd2⟩ := parseStep_good ha hd hstep
      exact ih ha2 hd2 h

/-- Counterexample to C5 as stated: with no resolvable handlers, a
single non-empty (hence "malformed") handler token makes the whole read
fail with an error instead of being silently dropped. -/
theorem read_fails_on_malformed_token_counterexample :
    MimeApps.readFrom (fun _ => false)
      ["[Default Applications]".data, "a/b=bad.desktop;".data]
      = .error (.notFound "bad.desktop".data) := by
  decide

/-- C5 (amended): when a read succeeds, empty handler tokens (stray
semicolons) have been silently dropped — every stored handler string is
nonempty and parsed — and every `default_apps` entry whose handler list
ended up empty has been pruned; but a non-empty handler token that
fails to parse makes the whole read return an error instead (see the
counterexample). -/
theorem read_result_pruned_and_tokens_clean
    (valid : Str → Bool) (f : List Str) (m : MimeApps)
    (hok : MimeApps.readFrom valid f = .ok m) :
    (∀ p ∈ m.defaultApps, p.2 ≠ []) ∧
    (∀ p ∈ m.defaultApps, ∀ h ∈ p.2, h ≠ [] ∧ valid h = true) ∧
    (∀ p ∈ m.addedAssociations, ∀ h ∈ p.2, h ≠ [] ∧ valid h = true) := by
  unfold MimeApps.readFrom at hok
  cases hparse : parseAll valid ⟨.top, false, false, [], []⟩ f with
  | error e => rw [hparse] at hok; cases hok
  | ok st =>
    rw [hparse] at hok
    cases hok
    have hinit : goodLists valid ([] : MimeMap) := by
      intro p hp; cases hp
    obtain ⟨ha, hd⟩ := parseAll_good hinit hinit hparse
    refine ⟨?_, ?_, ha⟩
    · intro p hp
      obtain ⟨_, hne⟩ := List.mem_filter.mp hp
      intro hpe
      rw [hpe] at hne
      simp at hne
    · intro p hp
      exact hd p (List.mem_filter.mp hp).1

/-- Witness for the amended C5: a successful read of a file with a
stray-semicolon entry (`a/b=;`, pruned) and a normal entry. -/
theorem read_result_pruned_and_tokens_clean_witness :
    MimeApps.readFrom validX
      ["[Default Applications]".data, "a/b=;".data, "a/c=x.desktop;".data]
      = .ok ⟨[], [("a/c".data, ["x.desktop".data])]⟩ ∧
    ((∀ p ∈ (MimeApps.mk [] [("a/c".data, ["x.desktop".data])]).defaultApps,
        p.2 ≠ []) ∧
     (∀ p ∈ (MimeApps.mk [] [("a/c".data, ["x.desktop".data])]).defaultApps,
        ∀ h ∈ p.2, h ≠ [] ∧ validX h = true) ∧
     (∀ p ∈ (MimeApps.mk [] [("a/c".data, ["x.desktop".data])]).addedAssociations,
        ∀ h ∈ p.2, h ≠ [] ∧ validX h = true)) := by
  refine ⟨by decide, ?_⟩
  exact read_result_pruned_and_tokens_clean validX
    ["[Default Applications]".data, "a/b=;".data, "a/c=x.desktop;".data]
    ⟨[], [("a/c".data, ["x.desktop".data])]⟩ (by decide)

/-! ## C8: the selector protocol -/

/-- C8: with an exact entry for `m` whose prepared candidate list has
more than one element and the selector enabled and tokenizable, the
candidate names are fed newline-joined to the selector process (`run`);
an empty trimmed answer resolves to `Cancelled`, a non-empty answer
matching no candidate name to `NotFound`, and an answer matching a
candidate name to that candidate's handler. -/
theorem selector_protocol
    (entries : Str → Option DesktopEntry) (run : Str → Str)
    (st : MimeApps) (cfg : ConfigFile) (m : Str) (l : DesktopList)
    (t0 : Str) (ts0 : List Str)
    (hexact : mapGet st.defaultApps m = some l)
    (hsel : cfg.enableSelector = true)
    (htok : shlexSplit cfg.selector = some (t0 :: ts0))
    (hlen : 1 < (MimeApps.pairNames entries l).length) :
    (trimEnd (run (joinSep '\n' ((MimeApps.pairNames entries l).map (fun p => p.2)))) = [] →
      st.getHandlerFromUser entries run cfg m = .error .cancelled) ∧
    (trimEnd (run (joinSep '\n' ((MimeApps.pairNames entries l).map (fun p => p.2)))) ≠ [] →
      (MimeApps.pairNames entries l).find? (fun p =>
        p.2 = trimEnd (run (joinSep '\n' ((MimeApps.pairNames entries l).map (fun p => p.2))))) = none →
      st.getHandlerFromUser entries run cfg m = .error (.notFound m)) ∧
    (trimEnd (run (joinSep '\n' ((MimeApps.pairNames entries l).map (fun p => p.2)))) ≠ [] →
      ∀ p, (MimeApps.pairNames entries l).find? (fun q =>
        q.2 = trimEnd (run (joinSep '\n' ((MimeApps.pairNames entries l).map (fun p => p.2))))) = some p →
      st.getHandlerFromUser entries run cfg m = .ok p.1) := by
  have hres : st.getHandlerFromUser entries run cfg m
      = MimeApps.resolveList entries run cfg m l := by
    simp [MimeApps.getHandlerFromUser, hexact, Option.orElse]
  refine ⟨?_, ?_, ?_⟩
  · intro hout
    rw [hres]
    simp [MimeApps.resolveList, hsel, hlen, select, htok, hout]
  · intro hout hfind
    have hie : (trimEnd (run (joinSep '\n'
        ((MimeApps.pairNames entries l).map (fun p => p.2))))).isEmpty = false := by
      cases hc : trimEnd (run (joinSep '\n'
          ((MimeApps.pairNames entries l).map (fun p => p.2)))) with
      | nil => exact absurd hc hout
      | cons a b => rfl
    rw [hres]
    simp [MimeApps.resolveList, hsel, hlen, select, htok, hie, hfind]
  · intro hout p hfind
    have hie : (trimEnd (run (joinSep '\n'
        ((MimeApps.pairNames entries l).map (fun p => p.2))))).isEmpty = false := by
      cases hc : trimEnd (run (joinSep '\n'
          ((MimeApps.pairNames entries l).map (fun p => p.2)))) with
      | nil => exact absurd hc hout
      | cons a b => rfl
    rw [hres]
    simp [MimeApps.resolveList, hsel, hlen, select, htok, hie, hfind]

/-- Witness for C8, the spec's scenario: three candidates, the selector
answers one of the displayed names, and that candidate's handler is
returned. -/
theorem selector_protocol_witness :
    (mapGet [("text/plain".data,
        ["mpv.desktop".data, "brave.desktop".data, "nvim.desktop".data])]
        "text/plain".data
      = some ["mpv.desktop".data, "brave.desktop".data, "nvim.desktop".data] ∧
     shlexSplit selConfigFile.selector = some ["rofi".data, "-dmenu".data] ∧
     1 < (MimeApps.pairNames sampleEntries
        ["mpv.desktop".data, "brave.desktop".data, "nvim.desktop".data]).length ∧
     (MimeApps.pairNames sampleEntries
        ["mpv.desktop".data, "brave.desktop".data, "nvim.desktop".data]).find?
        (fun q => q.2 = trimEnd (runBrave (joinSep '\n'
          ((MimeApps.pairNames sampleEntries
            ["mpv.desktop".data, "brave.desktop".data, "nvim.desktop".data]).map
            (fun p => p.2)))))
       = some ("brave.desktop".data, "Brave".data)) ∧
    MimeApps.getHandlerFromUser sampleEntries runBrave
      ⟨[], [("text/plain".data,
        ["mpv.desktop".data, "brave.desktop".data, "nvim.desktop".data])]⟩
      selConfigFile "text/plain".data = .ok "brave.desktop".data := by
  refine ⟨⟨by decide, by decide, by decide, by decide⟩, ?_⟩
  exact (selector_protocol sampleEntries runBrave
    ⟨[], [("text/plain".data,
      ["mpv.desktop".data, "brave.desktop".data, "nvim.desktop".data])]⟩
    selConfigFile "text/plain".data
    ["mpv.desktop".data, "brave.desktop".data, "nvim.desktop".data]
    "rofi".data ["-dmenu".data]
    (by decide) (by decide) (by decide) (by decide)).2.2
    (by decide) ("brave.desktop".data, "Brave".data) (by decide)

/-! ## C9: wildcard fan-out on add/set -/

theorem addFan_eq {h : Str} :
    ∀ {rs : List Str} {st : MimeApps}, (∀ r ∈ rs, mimeValid r = true) →
      MimeApps.addFan h st rs
        = .ok { st with defaultApps := foldPush h st.defaultApps rs } := by
  intro rs
  induction rs with
  | nil => intro st _; rfl
  | cons r rest ih =>
    intro st hval
    have hr : mimeValid r = true := hval r (List.mem_cons_self r rest)
    simp only [MimeApps.addFan, mimeFromStr, hr, if_true]
    rw [ih (fun q hq => hval q (List.mem_cons_of_mem r hq))]
    rfl

theorem setFan_eq {h : Str} :
    ∀ {rs : List Str} {st : MimeApps}, (∀ r ∈ rs, mimeValid r = true) →
      MimeApps.setFan h st rs
        = .ok { st with defaultApps := foldSet h st.defaultApps rs } := by
  intro rs
  induction rs with
  | nil => intro st _; rfl
  | cons r rest ih =>
    intro st hval
    have hr : mimeValid r = true := hval r (List.mem_cons_self r rest)
    simp only [MimeApps.setFan, mimeFromStr, hr, if_true]
    rw [ih (fun q hq => hval q (List.mem_cons_of_mem r hq))]
    rfl

theorem foldPush_get_not_mem {h : Str} :
    ∀ {rs : List Str} {m : MimeMap} {q : Str}, q ∉ rs →
      mapGet (foldPush h m rs) q = mapGet m q := by
  intro rs
  induction rs with
  | nil => intro m q _; rfl
  | cons r rest ih =>
    intro m q hq
    have hne : q ≠ r := fun he => hq (he ▸ List.mem_cons_self r rest)
    rw [foldPush, List.foldl_cons]
    rw [show (rest.foldl (fun m r => mapPushBack m r h) (mapPushBack m r h))
        = foldPush h (mapPushBack m r h) rest from rfl]
    rw [ih (fun hm => hq (List.mem_cons_of_mem r hm))]
    exact mapGet_mapPushBack_ne m r q h hne

theorem foldSet_get_not_mem {h : Str} :
    ∀ {rs : List Str} {m : MimeMap} {q : Str}, q ∉ rs →
      mapGet (foldSet h m rs) q = mapGet m q := by
  intro rs
  induction rs with
  | nil => intro m q _; rfl
  | cons r rest ih =>
    intro m q hq
    have hne : q ≠ r := fun he => hq (he ▸ List.mem_cons_self r rest)
    rw [foldSet, List.foldl_cons]
    rw [show (rest.foldl (fun m r => mapInsert m r [h]) (mapInsert m r [h]))
        = foldSet h (mapInsert m r [h]) rest from rfl]
    rw [ih (fun hm => hq (List.mem_cons_of_mem r hm))]
    exact mapGet_mapInsert_ne m r q [h] hne

theorem mapInsert_keys {m : MimeMap} {k : Str} {v : DesktopList} :
    ∀ p ∈ mapInsert m k v, p.1 = k ∨ ∃ q ∈ m, q.1 = p.1 := by
  intro p hp
  rcases mapInsert_mem p hp with h1 | h2
  · exact Or.inl (by rw [h1])
  · exact Or.inr ⟨p, h2, rfl⟩

theorem mapWF_mapInsert (m : MimeMap) (k : Str) (v : DesktopList)
    (hwf : mapWF m) : mapWF (mapInsert m k v) := by
  induction m with
  | nil => simp [mapInsert, mapWF]
  | cons q t ih =>
    obtain ⟨k1, v1⟩ := q
    rw [mapWF, List.pairwise_cons] at hwf
    obtain ⟨hhead, htail⟩ := hwf
    by_cases hlt : strLt k k1
    · simp only [mapInsert, hlt, if_true, mapWF, List.pairwise_cons]
      refine ⟨?_, ?_, htail⟩
      · intro p hp
        rcases List.mem_cons.mp hp with h1 | h2
        · rw [h1]
          exact hlt
        · exact strLt_trans hlt (hhead p h2)
      · exact hhead
    · by_cases heq : k = k1
      · subst heq
        simp only [mapInsert, strLt_irrefl, Bool.false_eq_true, if_false,
          if_true, ite_true, if_pos rfl, mapWF, List.pairwise_cons]
        exact ⟨hhead, htail⟩
      · have hne : (k = k1) = False := eq_false heq
        simp only [mapInsert, hlt, hne, if_false, Bool.false_eq_true,
          ite_false, mapWF, List.pairwise_cons]
        refine ⟨?_, ih htail⟩
        intro p hp
        rcases mapInsert_keys p hp with h1 | ⟨r, hr, hr2⟩
        · rw [h1]
          rcases strLt_total heq with h2 | h2
          · exact absurd h2 hlt
          · exact h2
        · rw [← hr2]
          exact hhead r hr

theorem foldPush_get_mem {h : Str} :
    ∀ {rs : List Str} {m : MimeMap} {q : Str}, mapWF m → rs.Nodup → q ∈ rs →
      mapGet (foldPush h m rs) q = some ((mapGet m q).getD [] ++ [h]) := by
  intro rs
  induction rs with
  | nil => intro m q _ _ hq; cases hq
  | cons r rest ih =>
    intro m q hwf hnd hq
    rw [List.nodup_cons] at hnd
    obtain ⟨hr, hnd2⟩ := hnd
    have hstep : (foldPush h m (r :: rest)) = foldPush h (mapPushBack m r h) rest := rfl
    rw [hstep]
    rcases List.mem_cons.mp hq with h1 | h2
    · subst h1
      rw [foldPush_get_not_mem hr]
      exact mapGet_mapPushBack_self m q h hwf
    · have hne : q ≠ r := fun he => hr (he ▸ h2)
      rw [ih (mapWF_mapPushBack m r h hwf) hnd2 h2]
      rw [mapGet_mapPushBack_ne m r q h hne]

theorem foldSet_get_mem {h : Str} :
    ∀ {rs : List Str} {m : MimeMap} {q : Str}, rs.Nodup → q ∈ rs →
      mapGet (foldSet h m rs) q = some [h] := by
  intro rs
  induction rs with
  | nil => intro m q _ hq; cases hq
  | cons r rest ih =>
    intro m q hnd hq
    rw [List.nodup_cons] at hnd
    obtain ⟨hr, hnd2⟩ := hnd
    have hstep : (foldSet h m (r :: rest)) = foldSet h (mapInsert m r [h]) rest := rfl
    rw [hstep]
    rcases List.mem_cons.mp hq with h1 | h2
    · subst h1
      rw [foldSet_get_not_mem hr]
      exact mapGet_mapInsert_self m q [h]
    · exact ih hnd2 h2

/-- C9: with wildcard expansion configured and a `*` in the MIME
pattern, `add_handler` and `set_handler` succeed, leave the literal
wildcard key alone (and every key outside the matched registry
entries), and instead append the handler to (respectively overwrite
with exactly the handler) every registry MIME type the pattern
glob-matches. -/
theorem wildcard_fanout_add_and_set
    (db : List Str) (st : MimeApps) (mime h : Str)
    (hstar : '*' ∈ mime)
    (hwf : mapWF st.defaultApps)
    (hdb : ∀ r ∈ mimeTypes db, mimeValid r = true ∧ '*' ∉ r)
    (hnodup : (mimeTypes db).Nodup) :
    (∃ st2, MimeApps.addHandler db st mime h true = .ok st2 ∧
      mapGet st2.defaultApps mime = mapGet st.defaultApps mime ∧
      (∀ r ∈ mimeTypes db, wildMatch mime r = true →
        mapGet st2.defaultApps r
          = some ((mapGet st.defaultApps r).getD [] ++ [h])) ∧
      (∀ q, q ∉ (mimeTypes db).filter (fun r => wildMatch mime r) →
        mapGet st2.defaultApps q = mapGet st.defaultApps q)) ∧
    (∃ st3, MimeApps.setHandler db st mime h true = .ok st3 ∧
      mapGet st3.defaultApps mime = mapGet st.defaultApps mime ∧
      (∀ r ∈ mimeTypes db, wildMatch mime r = true →
        mapGet st3.defaultApps r = some [h]) ∧
      (∀ q, q ∉ (mimeTypes db).filter (fun r => wildMatch mime r) →
        mapGet st3.defaultApps q = mapGet st.defaultApps q)) := by
  have hval : ∀ r ∈ (mimeTypes db).filter (fun r => wildMatch mime r),
      mimeValid r = true :=
    fun r hr => (hdb r (List.mem_filter.mp hr).1).1
  have hnd : ((mimeTypes db).filter (fun r => wildMatch mime r)).Nodup :=
    hnodup.filter _
  have hmime : mime ∉ (mimeTypes db).filter (fun r => wildMatch mime r) := by
    intro hmem
    exact (hdb mime (List.mem_filter.mp hmem).1).2 hstar
  constructor
  · refine ⟨{ st with defaultApps := foldPush h st.defaultApps ((mimeTypes db).filter (fun r => wildMatch mime r)) }, ?_, ?_, ?_, ?_⟩
    · exact addFan_eq hval
    · exact foldPush_get_not_mem hmime
    · intro r hr hm
      exact foldPush_get_mem hwf hnd
        (List.mem_filter.mpr ⟨hr, by simp [hm]⟩)
    · intro q hq
      exact foldPush_get_not_mem hq
  · refine ⟨{ st with defaultApps := foldSet h st.defaultApps ((mimeTypes db).filter (fun r => wildMatch mime r)) }, ?_, ?_, ?_, ?_⟩
    · exact setFan_eq hval
    · exact foldSet_get_not_mem hmime
    · intro r hr hm
      exact foldSet_get_mem hnd (List.mem_filter.mpr ⟨hr, by simp [hm]⟩)
    · intro q hq
      exact foldSet_get_not_mem hq

/-- Witness for C9: expanding `video/*` over a registry with two video
types adds concrete entries for both and nothing under the literal
wildcard key. -/
theorem wildcard_fanout_add_and_set_witness :
    ('*' ∈ "video/*".data ∧
     (∀ r ∈ mimeTypes ["video/mp4".data, "video/webm".data],
        mimeValid r = true ∧ '*' ∉ r) ∧
     (mimeTypes ["video/mp4".data, "video/webm".data]).Nodup) ∧
    MimeApps.addHandler ["video/mp4".data, "video/webm".data]
      ⟨[], []⟩ "video/*".data "mpv.desktop".data true
      = .ok ⟨[], [("video/mp4".data, ["mpv.desktop".data]),
                  ("video/webm".data, ["mpv.desktop".data])]⟩ ∧
    MimeApps.setHandler ["video/mp4".data, "video/webm".data]
      ⟨[], []⟩ "video/*".data "mpv.desktop".data true
      = .ok ⟨[], [("video/mp4".data, ["mpv.desktop".data]),
                  ("video/webm".data, ["mpv.desktop".data])]⟩ ∧
    (∃ st2, MimeApps.addHandler ["video/mp4".data, "video/webm".data]
        ⟨[], []⟩ "video/*".data "mpv.desktop".data true = .ok st2 ∧
      mapGet st2.defaultApps "video/*".data
        = mapGet (MimeApps.mk [] []).defaultApps "video/*".data ∧
      (∀ r ∈ mimeTypes ["video/mp4".data, "video/webm".data],
        wildMatch "video/*".data r = true →
        mapGet st2.defaultApps r
          = some ((mapGet (MimeApps.mk [] []).defaultApps r).getD []
              ++ ["mpv.desktop".data])) ∧
      (∀ q, q ∉ (mimeTypes ["video/mp4".data, "video/webm".data]).filter
          (fun r => wildMatch "video/*".data r) →
        mapGet st2.defaultApps q
          = mapGet (MimeApps.mk [] []).defaultApps q)) := by
  refine ⟨⟨by decide, by decide, by decide⟩, by decide, by decide, ?_⟩
  exact (wildcard_fanout_add_and_set ["video/mp4".data, "video/webm".data]
    ⟨[], []⟩ "video/*".data "mpv.desktop".data
    (by decide) (by decide) (by decide) (by decide)).1

/-! ## C6: placeholder substitution in `get_cmd` -/

theorem containsSub_two (p1 p2 c d : Char) (rest : Str) :
    containsSub [p1, p2] (c :: d :: rest)
      = (((c = p1 : Bool) && (d = p2 : Bool)) || containsSub [p1, p2] (d :: rest)) := by
  show ((c = p1 && (d = p2 && true)) || containsSub [p1, p2] (d :: rest)) = _
  rw [Bool.and_true]

theorem containsSpecial_eq_hasPlaceholder (s : Str) :
    containsSpecial s = hasPlaceholder s := by
  induction s with
  | nil => rfl
  | cons c rest ih =>
    cases rest with
    | nil =>
      simp [containsSpecial, hasPlaceholder, containsSub, startsWith]
    | cons d rest2 =>
      rw [show containsSpecial (c :: d :: rest2)
          = ((c = '%' && phChar d) || containsSpecial (d :: rest2)) from rfl, ih]
      rw [hasPlaceholder, hasPlaceholder]
      rw [containsSub_two, containsSub_two, containsSub_two, containsSub_two]
      rw [Bool.eq_iff_iff]
      simp only [phChar, Bool.or_eq_true, Bool.and_eq_true, decide_eq_true_eq]
      constructor
      · intro hx
        tauto
      · intro hx
        tauto

theorem listFlat_congr {α β : Type} {f g : α → List β} (h : ∀ a, f a = g a) :
    ∀ l, listFlat f l = listFlat g l := by
  intro l
  induction l with
  | nil => rfl
  | cons a t ih => simp [listFlat, h a, ih]

theorem substToken_eq_claimSubst (args : List Str) (s : Str) :
    substToken args s = claimSubst args s := by
  unfold substToken claimSubst
  by_cases h1 : s = "%f".data ∨ s = "%F".data ∨ s = "%u".data ∨ s = "%U".data
  · have hm : s ∈ specialLits := by
      simp only [specialLits, List.mem_cons, List.not_mem_nil, or_false]
      exact h1
    rw [if_pos hm, if_pos h1]
  · have hm : s ∉ specialLits := by
      intro hmem
      refine h1 ?_
      simpa only [specialLits, List.mem_cons, List.not_mem_nil, or_false]
        using hmem
    rw [if_neg hm, if_neg h1, containsSpecial_eq_hasPlaceholder]

/-- Counterexample to C6 as stated: for the template `run %f%u` with
argument `x`, the program replaces only the first placeholder of the
embedded token (`%f%u` becomes `x%u` — the `replace_all_with` closure
returns `false`, stopping after the first match), while the claim's
every-occurrence substitution predicts `xx`. -/
theorem get_cmd_every_occurrence_counterexample :
    DesktopEntry.getCmd sampleEntries runNone plainConfig
      (DesktopEntry.mk "run".data "run %f%u".data "run.desktop".data
        false [] []) ["x".data]
      = .ok ["run".data, "x%u".data] ∧
    listFlat (claimSubstEvery ["x".data]) ["run".data, "%f%u".data]
      = ["run".data, "xx".data] ∧
    ("x%u".data : Str) ≠ "xx".data := by
  decide

/-- C6 (amended): for a non-terminal entry whose template tokenizes,
`get_cmd` yields exactly the amended substitution: when the raw
template contains a placeholder substring, each token that is literally
`%f`, `%F`, `%u` or `%U` is replaced by the whole argument list spliced
in, each token merely containing a placeholder has only its first
placeholder occurrence replaced in place by the space-joined arguments
(the rest of the token is kept verbatim), and other tokens are kept;
when the template has no placeholder, the arguments are appended at
the end. -/
theorem get_cmd_placeholder_substitution
    (entries : Str → Option DesktopEntry) (run : Str → Str)
    (c : Config) (e : DesktopEntry) (args toks : List Str)
    (hterm : e.terminal = false)
    (htoks : shlexSplit e.exec = some toks) :
    DesktopEntry.getCmd entries run c e args
      = .ok (if hasPlaceholder e.exec then listFlat (claimSubst args) toks
             else toks ++ args) := by
  unfold DesktopEntry.getCmd
  rw [htoks]
  simp only [hterm, Bool.false_and, Bool.false_eq_true, if_false, ite_false]
  unfold DesktopEntry.expandTokens
  rw [containsSpecial_eq_hasPlaceholder,
    listFlat_congr (substToken_eq_claimSubst args) toks]

/-- Witness for the amended C6: `mpv -- %U` with two arguments splices
them in for the `%U` token; `echo hi` appends; `run %f%u` replaces only
the first placeholder of the embedded token. -/
theorem get_cmd_placeholder_substitution_witness :
    (shlexSplit "mpv -- %U".data = some ["mpv".data, "--".data, "%U".data] ∧
     shlexSplit "echo hi".data = some ["echo".data, "hi".data] ∧
     shlexSplit "run %f%u".data = some ["run".data, "%f%u".data]) ∧
    DesktopEntry.getCmd sampleEntries runNone plainConfig
      (DesktopEntry.mk "mpv".data "mpv -- %U".data "mpv.desktop".data
        false [] []) ["a.mp4".data, "b.mp4".data]
      = .ok (if hasPlaceholder "mpv -- %U".data then
          listFlat (claimSubst ["a.mp4".data, "b.mp4".data])
            ["mpv".data, "--".data, "%U".data]
        else ["mpv".data, "--".data, "%U".data] ++ ["a.mp4".data, "b.mp4".data]) ∧
    DesktopEntry.getCmd sampleEntries runNone plainConfig
      (DesktopEntry.mk "echo".data "echo hi".data "echo.desktop".data
        false [] []) ["x".data]
      = .ok (if hasPlaceholder "echo hi".data then
          listFlat (claimSubst ["x".data]) ["echo".data, "hi".data]
        else ["echo".data, "hi".data] ++ ["x".data]) ∧
    DesktopEntry.getCmd sampleEntries runNone plainConfig
      (DesktopEntry.mk "run".data "run %f%u".data "run.desktop".data
        false [] []) ["x".data]
      = .ok (if hasPlaceholder "run %f%u".data then
          listFlat (claimSubst ["x".data]) ["run".data, "%f%u".data]
        else ["run".data, "%f%u".data] ++ ["x".data]) ∧
    DesktopEntry.getCmd sampleEntries runNone plainConfig
      (DesktopEntry.mk "mpv".data "mpv -- %U".data "mpv.desktop".data
        false [] []) ["a.mp4".data, "b.mp4".data]
      = .ok ["mpv".data, "--".data, "a.mp4".data, "b.mp4".data] ∧
    listFlat (claimSubst ["x".data]) ["run".data, "%f%u".data]
      = ["run".data, "x%u".data] := by
  refine ⟨⟨by decide, by decide, by decide⟩, ?_, ?_, ?_, by decide, by decide⟩
  · exact get_cmd_placeholder_substitution sampleEntries runNone plainConfig
      (DesktopEntry.mk "mpv".data "mpv -- %U".data "mpv.desktop".data
        false [] []) ["a.mp4".data, "b.mp4".data]
      ["mpv".data, "--".data, "%U".data] (by decide) (by decide)
  · exact get_cmd_placeholder_substitution sampleEntries runNone plainConfig
      (DesktopEntry.mk "echo".data "echo hi".data "echo.desktop".data
        false [] []) ["x".data] ["echo".data, "hi".data] (by decide) (by decide)
  · exact get_cmd_placeholder_substitution sampleEntries runNone plainConfig
      (DesktopEntry.mk "run".data "run %f%u".data "run.desktop".data
        false [] []) ["x".data] ["run".data, "%f%u".data] (by decide) (by decide)

/-! ## C7: terminal-emulator wrapping in `get_cmd` -/

/-- C7: for an entry flagged `terminal: true` while stdout is not a
terminal, with the `x-scheme-handler/terminal` handler resolving to a
desktop entry and `term_exec_args` configured, the resolved terminal
command is that entry's exec string with the extra arguments appended;
`get_cmd` prepends its shell tokens to the expanded command tokens, and
fails with `BadCmd` when the terminal command does not tokenize. -/
theorem get_cmd_terminal_wrap
    (entries : Str → Option DesktopEntry) (run : Str → Str)
    (c : Config) (e : DesktopEntry) (args toks : List Str)
    (th : Str) (te : DesktopEntry) (ea : Str)
    (hterm : e.terminal = true)
    (hout : c.terminalOutput = false)
    (htoks : shlexSplit e.exec = some toks)
    (hhandler : Config.getHandler entries run c "x-scheme-handler/terminal".data
      = .ok th)
    (hentry : entries th = some te)
    (hea : c.config.termExecArgs = some ea) :
    Config.terminal entries run c = .ok (te.exec ++ ' ' :: ea) ∧
    (∀ ts, shlexSplit (te.exec ++ ' ' :: ea) = some ts →
      DesktopEntry.getCmd entries run c e args
        = .ok (ts ++ e.expandTokens args toks)) ∧
    (shlexSplit (te.exec ++ ' ' :: ea) = none →
      DesktopEntry.getCmd entries run c e args
        = .error (.badCmd (te.exec ++ ' ' :: ea))) := by
  have hterminal : Config.terminal entries run c = .ok (te.exec ++ ' ' :: ea) := by
    unfold Config.terminal
    rw [hhandler]
    simp [hentry, Option.orElse, hea]
  refine ⟨hterminal, ?_, ?_⟩
  · intro ts hts
    unfold DesktopEntry.getCmd
    rw [htoks]
    simp only [hterm, hout, Bool.not_false, Bool.and_true, if_true, ite_true]
    rw [hterminal]
    simp only [hts]
  · intro hts
    unfold DesktopEntry.getCmd
    rw [htoks]
    simp only [hterm, hout, Bool.not_false, Bool.and_true, if_true, ite_true]
    rw [hterminal]
    simp only [hts]

/-- Witness for C7, the spec's scenario: `cmus-remote -q %f` with the
terminal flag, run outside a terminal with argument `song.mp3` and
terminal handler `xterm` plus configured `-e`, prepends the terminal
launcher with the extra argument appended. -/
theorem get_cmd_terminal_wrap_witness :
    (cmusEntry.terminal = true ∧
     termConfig.terminalOutput = false ∧
     shlexSplit cmusEntry.exec
       = some ["cmus-remote".data, "-q".data, "%f".data] ∧
     Config.getHandler sampleEntries runNone termConfig
       "x-scheme-handler/terminal".data = .ok "xterm.desktop".data ∧
     sampleEntries "xterm.desktop".data
       = some (DesktopEntry.mk "XTerm".data "xterm".data "xterm.desktop".data
           false [] ["TerminalEmulator".data]) ∧
     termConfig.config.termExecArgs = some "-e".data) ∧
    Config.terminal sampleEntries runNone termConfig = .ok "xterm -e".data ∧
    DesktopEntry.getCmd sampleEntries runNone termConfig cmusEntry
      ["song.mp3".data]
      = .ok (["xterm".data, "-e".data]
          ++ cmusEntry.expandTokens ["song.mp3".data]
               ["cmus-remote".data, "-q".data, "%f".data]) ∧
    DesktopEntry.getCmd sampleEntries runNone termConfig cmusEntry
      ["song.mp3".data]
      = .ok ["xterm".data, "-e".data, "cmus-remote".data, "-q".data,
          "song.mp3".data] := by
  have hmain := get_cmd_terminal_wrap sampleEntries runNone termConfig
    cmusEntry ["song.mp3".data] ["cmus-remote".data, "-q".data, "%f".data]
    "xterm.desktop".data
    (DesktopEntry.mk "XTerm".data "xterm".data "xterm.desktop".data
      false [] ["TerminalEmulator".data]) "-e".data
    (by decide) (by decide) (by decide) (by decide) (by decide) (by decide)
  refine ⟨⟨by decide, by decide, by decide, by decide, by decide, by decide⟩,
    hmain.1, hmain.2.1 ["xterm".data, "-e".data] (by decide), by decide⟩

/-! ## C1: the round-trip law.  Split/join lemmas -/

theorem splitChar_ne_nil (c : Char) (s : Str) : splitChar c s ≠ [] := by
  cases s with
  | nil => simp [splitChar]
  | cons x xs =>
    by_cases hx : x = c
    · simp [splitChar, hx]
    · simp only [splitChar, hx, if_false]
      cases splitChar c xs with
      | nil => simp
      | cons p ps => simp

theorem splitChar_no_sep (c : Char) (x : Str) (hx : c ∉ x) :
    splitChar c x = [x] := by
  induction x with
  | nil => rfl
  | cons a t ih =>
    have ha : ¬(a = c) := fun he => hx (he ▸ List.mem_cons_self a t)
    have ht : c ∉ t := fun hm => hx (List.mem_cons_of_mem a hm)
    simp only [splitChar, ha, if_false, ih ht]

theorem splitChar_append_cons (c : Char) (x rest : Str) (hx : c ∉ x) :
    splitChar c (x ++ c :: rest) = x :: splitChar c rest := by
  induction x with
  | nil => simp [splitChar]
  | cons a t ih =>
    have ha : ¬(a = c) := fun he => hx (he ▸ List.mem_cons_self a t)
    have ht : c ∉ t := fun hm => hx (List.mem_cons_of_mem a hm)
    simp only [List.cons_append, splitChar, ha, if_false, List.append_eq]
    rw [ih ht]

theorem splitChar_joinSep_parts (c : Char) :
    ∀ (hs : List Str), hs ≠ [] → (∀ h ∈ hs, c ∉ h) →
      splitChar c (joinSep c hs ++ [c]) = hs ++ [[]] := by
  intro hs
  induction hs with
  | nil => intro h; exact absurd rfl h
  | cons x rest ih =>
    intro _ hall
    have hx : c ∉ x := hall x (List.mem_cons_self x rest)
    cases rest with
    | nil =>
      show splitChar c (x ++ [c]) = [x, []]
      rw [show x ++ [c] = x ++ c :: [] from rfl, splitChar_append_cons c x [] hx]
      rfl
    | cons y t =>
      have hrest : joinSep c (x :: y :: t) = x ++ c :: joinSep c (y :: t) := rfl
      rw [hrest, List.append_assoc, List.cons_append,
        splitChar_append_cons c x _ hx,
        ih (by simp) (fun h hm => hall h (List.mem_cons_of_mem x hm))]
      rfl

theorem joinSep_splitChar (c : Char) (s : Str) :
    joinSep c (splitChar c s) = s := by
  induction s with
  | nil => rfl
  | cons x xs ih =>
    by_cases hx : x = c
    · subst hx
      rw [show splitChar x (x :: xs) = [] :: splitChar x xs by simp [splitChar]]
      cases hsp : splitChar x xs with
      | nil => exact absurd hsp (splitChar_ne_nil x xs)
      | cons p ps =>
        rw [hsp] at ih
        show x :: joinSep x (p :: ps) = x :: xs
        rw [ih]
    · rw [show splitChar c (x :: xs)
          = (match splitChar c xs with
             | [] => [[x]]
             | p :: ps => (x :: p) :: ps) by simp [splitChar, hx]]
      cases hsp : splitChar c xs with
      | nil => exact absurd hsp (splitChar_ne_nil c xs)
      | cons p ps =>
        rw [hsp] at ih
        cases ps with
        | nil =>
          show x :: p = x :: xs
          rw [show joinSep c [p] = p from rfl] at ih
          rw [ih]
        | cons q qs =>
          show (x :: p) ++ c :: joinSep c (q :: qs) = x :: xs
          rw [show joinSep c (p :: q :: qs) = p ++ c :: joinSep c (q :: qs) from rfl] at ih
          rw [← ih]
          rfl

theorem splitFirst_append (c : Char) (k v : Str) (hk : c ∉ k) :
    splitFirst c (k ++ c :: v) = some (k, v) := by
  induction k with
  | nil => simp [splitFirst]
  | cons a t ih =>
    have ha : ¬(a = c) := fun he => hk (he ▸ List.mem_cons_self a t)
    have ht : c ∉ t := fun hm => hk (List.mem_cons_of_mem a hm)
    simp only [List.cons_append, splitFirst, ha, if_false, List.append_eq]
    rw [ih ht]
    rfl

theorem uniqueFrom_of_nodup :
    ∀ {l : List Str} {seen : List Str}, l.Nodup → (∀ x ∈ l, x ∉ seen) →
      uniqueFrom seen l = l := by
  intro l
  induction l with
  | nil => intro seen _ _; rfl
  | cons x t ih =>
    intro seen hnd hdisj
    rw [List.nodup_cons] at hnd
    obtain ⟨hx, hnd2⟩ := hnd
    have hxs : x ∉ seen := hdisj x (List.mem_cons_self x t)
    simp only [uniqueFrom, hxs, if_false]
    rw [ih hnd2]
    intro y hy
    intro hmem
    rcases List.mem_cons.mp hmem with h1 | h2
    · exact hx (h1 ▸ hy)
    · exact hdisj y (List.mem_cons_of_mem x hy) h2

theorem handlersFromTokens_id {valid : Str → Bool} :
    ∀ {ts : List Str}, (∀ t ∈ ts, valid t = true) →
      handlersFromTokens valid ts = .ok ts := by
  intro ts
  induction ts with
  | nil => intro _; rfl
  | cons t rest ih =>
    intro hall
    have ht : valid t = true := hall t (List.mem_cons_self t rest)
    simp only [handlersFromTokens, handlerFromStr, ht, if_true]
    rw [ih (fun x hx => hall x (List.mem_cons_of_mem t hx))]

theorem desktopListFromStr_display {valid : Str → Bool} {hs : DesktopList}
    (hne : hs ≠ []) (hnd : hs.Nodup)
    (hall : ∀ h ∈ hs, handlerGood h = true ∧ valid h = true) :
    desktopListFromStr valid (displayDesktopList hs) = .ok hs := by
  have hsemi : ∀ h ∈ hs, ';' ∉ h := by
    intro h hh hc
    obtain ⟨hg, _⟩ := hall h hh
    rw [handlerGood, Bool.and_eq_true, List.all_eq_true] at hg
    have := hg.2 ';' hc
    simp [handlerChar] at this
  have hnonempty : ∀ h ∈ hs, ¬h.isEmpty := by
    intro h hh
    obtain ⟨hg, _⟩ := hall h hh
    rw [handlerGood, Bool.and_eq_true] at hg
    simpa using hg.1
  unfold desktopListFromStr displayDesktopList
  rw [splitChar_joinSep_parts ';' hs hne hsemi]
  rw [List.filter_append]
  rw [List.filter_eq_self.mpr (by intro a ha; simpa using hnonempty a ha)]
  rw [show List.filter (fun t => !t.isEmpty) [([] : Str)] = [] from rfl,
    List.append_nil]
  rw [uniqueFirst, uniqueFrom_of_nodup hnd (by intro x _; exact List.not_mem_nil x)]
  exact handlersFromTokens_id (fun t ht => (hall t ht).2)

/-! ## C1: key-shape lemmas -/

theorem mimeValid_shape {k : Str} (h : mimeValid k = true) :
    ∃ t sub, k = t ++ '/' :: sub ∧ t ≠ [] ∧ sub ≠ [] ∧
      (∀ c ∈ t, mimeChar c = true) ∧ (∀ c ∈ sub, mimeChar c = true) := by
  unfold mimeValid at h
  cases hsp : splitChar '/' k with
  | nil => rw [hsp] at h; cases h
  | cons t rest =>
    cases rest with
    | nil => rw [hsp] at h; cases h
    | cons sub rest2 =>
      cases rest2 with
      | nil =>
        rw [hsp] at h
        simp only [Bool.and_eq_true, List.all_eq_true, List.mem_append] at h
        obtain ⟨⟨ht, hsub⟩, hall⟩ := h
        refine ⟨t, sub, ?_, by simpa using ht, by simpa using hsub, ?_, ?_⟩
        · have := joinSep_splitChar '/' k
          rw [hsp] at this
          rw [← this]
          rfl
        · exact fun c hc => hall c (Or.inl hc)
        · exact fun c hc => hall c (Or.inr hc)
      | cons z rest3 => rw [hsp] at h; cases h

theorem mimeChar_not_delims {c : Char} (h : mimeChar c = true) :
    c ≠ '=' ∧ c ≠ '[' := by
  rw [mimeChar] at h
  constructor
  · intro he; subst he; simp [Char.isLower, Char.isDigit] at h
  · intro he; subst he; simp [Char.isLower, Char.isDigit] at h

theorem mimeValid_no_eq {k : Str} (h : mimeValid k = true) : '=' ∉ k := by
  obtain ⟨t, sub, hk, _, _, ht, hsub⟩ := mimeValid_shape h
  rw [hk]
  intro hmem
  rcases List.mem_append.mp hmem with h1 | h2
  · exact (mimeChar_not_delims (ht '=' h1)).1 rfl
  · rcases List.mem_cons.mp h2 with h3 | h4
    · cases h3
    · exact (mimeChar_not_delims (hsub '=' h4)).1 rfl

theorem mimeValid_head {k : Str} (h : mimeValid k = true) :
    ∃ c rest, k = c :: rest ∧ c ≠ '[' := by
  obtain ⟨t, sub, hk, htne, _, ht, _⟩ := mimeValid_shape h
  cases t with
  | nil => exact absurd rfl htne
  | cons c t2 =>
    refine ⟨c, t2 ++ '/' :: sub, by rw [hk]; rfl, ?_⟩
    exact (mimeChar_not_delims (ht c (List.mem_cons_self c t2))).2

/-! ## C1: one parse step on canonical lines -/

theorem parseStep_kv {valid : Str → Bool} {st : PState} {k : Str} {hs : DesktopList}
    (hkey : mimeValid k = true)
    (hlist : desktopListFromStr valid (displayDesktopList hs) = .ok hs) :
    parseStep valid st (MimeApps.kvLine (k, hs))
      = match st.sec with
        | .added => .ok { st with added := mapInsert st.added k hs }
        | .defaults => .ok { st with defaults := mapInsert st.defaults k hs }
        | .top => .ok st
        | .other => .ok st := by
  obtain ⟨c, rest, hk, hc⟩ := mimeValid_head hkey
  have hline : MimeApps.kvLine (k, hs)
      = c :: (rest ++ '=' :: displayDesktopList hs) := by
    show k ++ '=' :: displayDesktopList hs = _
    rw [hk]
    rfl
  have hne : ¬(MimeApps.kvLine (k, hs)).isEmpty = true := by
    rw [hline]
    simp
  have hhead : ¬((MimeApps.kvLine (k, hs)).head? = some '[' ∧
      (MimeApps.kvLine (k, hs)).getLast? = some ']') := by
    intro ⟨h1, _⟩
    rw [hline] at h1
    simp only [List.head?] at h1
    exact hc (Option.some.inj h1)
  have hsplit : splitFirst '=' (MimeApps.kvLine (k, hs))
      = some (k, displayDesktopList hs) :=
    splitFirst_append '=' k (displayDesktopList hs) (mimeValid_no_eq hkey)
  unfold parseStep
  rw [if_neg hne, if_neg hhead, hsplit]
  cases st.sec with
  | top => rfl
  | other => rfl
  | added =>
    simp only [mimeFromStr, hkey, if_true, hlist]
  | defaults =>
    simp only [mimeFromStr, hkey, if_true, hlist]

theorem parseStep_addedHeader {valid : Str → Bool} {st : PState}
    (h : st.seenAdded = false) :
    parseStep valid st addedHeader
      = .ok { st with sec := .added, seenAdded := true } := by
  unfold parseStep
  rw [if_neg (by decide), if_pos (by decide), if_pos (by decide), h]
  rfl

theorem parseStep_defaultsHeader {valid : Str → Bool} {st : PState}
    (h : st.seenDefaults = false) :
    parseStep valid st defaultsHeader
      = .ok { st with sec := .defaults, seenDefaults := true } := by
  unfold parseStep
  rw [if_neg (by decide), if_pos (by decide), if_neg (by decide),
    if_pos (by decide), h]
  rfl

/-! ## C1: folding the parser over canonical sections -/

theorem parseAll_append {valid : Str → Bool} :
    ∀ (l1 l2 : List Str) (st : PState),
      parseAll valid st (l1 ++ l2)
        = match parseAll valid st l1 with
          | .error e => .error e
          | .ok st2 => parseAll valid st2 l2 := by
  intro l1
  induction l1 with
  | nil => intro l2 st; rfl
  | cons l ls ih =>
    intro l2 st
    rw [show (l :: ls) ++ l2 = l :: (ls ++ l2) from rfl]
    rw [show parseAll valid st (l :: (ls ++ l2))
        = (match parseStep valid st l with
           | .error e => .error e
           | .ok st2 => parseAll valid st2 (ls ++ l2)) from rfl]
    rw [show parseAll valid st (l :: ls)
        = (match parseStep valid st l with
           | .error e => .error e
           | .ok st2 => parseAll valid st2 ls) from rfl]
    cases parseStep valid st l with
    | error e => rfl
    | ok st2 => exact ih l2 st2

theorem mapInsert_append_of_gt {m : MimeMap} {k : Str} {v : DesktopList}
    (h : ∀ p ∈ m, strLt p.1 k = true) :
    mapInsert m k v = m ++ [(k, v)] := by
  induction m with
  | nil => rfl
  | cons q t ih =>
    obtain ⟨k1, v1⟩ := q
    have h1 : strLt k1 k = true := h (k1, v1) (List.mem_cons_self _ _)
    have hlt : ¬strLt k k1 = true := by
      rw [strLt_asymm h1]
      simp
    have hne : ¬(k = k1) := fun he => (strLt_ne h1) he.symm
    simp only [mapInsert, hlt, hne, if_false, Bool.false_eq_true, ite_false,
      List.cons_append]
    rw [ih (fun p hp => h p (List.mem_cons_of_mem _ hp))]

theorem goodMap_tail {valid : Str → Bool} {p : Str × DesktopList} {es : MimeMap}
    (h : goodMap valid (p :: es)) : goodMap valid es := by
  obtain ⟨hwf, hall⟩ := h
  rw [mapWF, List.pairwise_cons] at hwf
  exact ⟨hwf.2, fun q hq => hall q (List.mem_cons_of_mem p hq)⟩

theorem parseAll_kvs {valid : Str → Bool} :
    ∀ {es : MimeMap} {st : PState},
      goodMap valid es →
      (st.sec = .added ∨ st.sec = .defaults) →
      (st.sec = .added → ∀ p ∈ st.added, ∀ q ∈ es, strLt p.1 q.1 = true) →
      (st.sec = .defaults → ∀ p ∈ st.defaults, ∀ q ∈ es, strLt p.1 q.1 = true) →
      parseAll valid st (es.map MimeApps.kvLine)
        = .ok (match st.sec with
            | .added => { st with added := st.added ++ es }
            | .defaults => { st with defaults := st.defaults ++ es }
            | _ => st) := by
  intro es
  induction es with
  | nil =>
    intro st _ hsec _ _
    obtain ⟨sec, sa, sd, ad, df⟩ := st
    rcases hsec with h | h <;> (cases h; simp [parseAll])
  | cons p rest ih =>
    intro st hgood hsec hordA hordD
    obtain ⟨k, hs⟩ := p
    obtain ⟨sec, sa, sd, ad, df⟩ := st
    have hkey : mimeValid k = true := (hgood.2 (k, hs) (List.mem_cons_self _ _)).1
    have hvals := hgood.2 (k, hs) (List.mem_cons_self _ _)
    have hlist : desktopListFromStr valid (displayDesktopList hs) = .ok hs :=
      desktopListFromStr_display hvals.2.1 hvals.2.2.1 hvals.2.2.2
    have hjoin : ∀ q ∈ rest, strLt k q.1 = true := by
      have hwf := hgood.1
      rw [mapWF, List.pairwise_cons] at hwf
      exact fun q hq => hwf.1 q hq
    rw [show (((k, hs) :: rest).map MimeApps.kvLine)
        = MimeApps.kvLine (k, hs) :: rest.map MimeApps.kvLine from rfl]
    rw [show parseAll valid ⟨sec, sa, sd, ad, df⟩
          (MimeApps.kvLine (k, hs) :: rest.map MimeApps.kvLine)
        = (match parseStep valid ⟨sec, sa, sd, ad, df⟩ (MimeApps.kvLine (k, hs)) with
           | .error e => .error e
           | .ok st2 => parseAll valid st2 (rest.map MimeApps.kvLine)) from rfl]
    rw [parseStep_kv hkey hlist]
    rcases hsec with h | h
    · cases h
      have hgt : ∀ p ∈ ad, strLt p.1 k = true :=
        fun p hp => hordA rfl p hp (k, hs) (List.mem_cons_self _ _)
      have hins : mapInsert ad k hs = ad ++ [(k, hs)] :=
        mapInsert_append_of_gt hgt
      have hordA2 : (PState.mk .added sa sd (ad ++ [(k, hs)]) df).sec = .added →
          ∀ p ∈ ad ++ [(k, hs)], ∀ q ∈ rest, strLt p.1 q.1 = true := by
        intro _ p hp q hq
        rcases List.mem_append.mp hp with h1 | h2
        · exact hordA rfl p h1 q (List.mem_cons_of_mem _ hq)
        · rw [List.mem_singleton.mp h2]
          exact hjoin q hq
      have hordD2 : (PState.mk .added sa sd (ad ++ [(k, hs)]) df).sec = .defaults →
          ∀ p ∈ df, ∀ q ∈ rest, strLt p.1 q.1 = true := by
        intro hcontr
        cases hcontr
      have hrec := @ih ⟨.added, sa, sd, ad ++ [(k, hs)], df⟩
        (goodMap_tail hgood) (Or.inl rfl) hordA2 hordD2
      dsimp only
      rw [hins, hrec]
      dsimp only
      rw [List.append_assoc]
      rfl
    · cases h
      have hgt : ∀ p ∈ df, strLt p.1 k = true :=
        fun p hp => hordD rfl p hp (k, hs) (List.mem_cons_self _ _)
      have hins : mapInsert df k hs = df ++ [(k, hs)] :=
        mapInsert_append_of_gt hgt
      have hordA2 : (PState.mk .defaults sa sd ad (df ++ [(k, hs)])).sec = .added →
          ∀ p ∈ ad, ∀ q ∈ rest, strLt p.1 q.1 = true := by
        intro hcontr
        cases hcontr
      have hordD2 : (PState.mk .defaults sa sd ad (df ++ [(k, hs)])).sec = .defaults →
          ∀ p ∈ df ++ [(k, hs)], ∀ q ∈ rest, strLt p.1 q.1 = true := by
        intro _ p hp q hq
        rcases List.mem_append.mp hp with h1 | h2
        · exact hordD rfl p h1 q (List.mem_cons_of_mem _ hq)
        · rw [List.mem_singleton.mp h2]
          exact hjoin q hq
      have hrec := @ih ⟨.defaults, sa, sd, ad, df ++ [(k, hs)]⟩
        (goodMap_tail hgood) (Or.inr rfl) hordA2 hordD2
      dsimp only
      rw [hins, hrec]
      dsimp only
      rw [List.append_assoc]
      rfl

/-! ## C1: the round-trip theorem -/

theorem parseAll_cons (valid : Str → Bool) (st : PState) (l : Str) (ls : List Str) :
    parseAll valid st (l :: ls)
      = match parseStep valid st l with
        | .error e => .error e
        | .ok st2 => parseAll valid st2 ls := rfl

theorem readFrom_saveTo {valid : Str → Bool} {a d : MimeMap}
    (ha : goodMap valid a) (hd : goodMap valid d) :
    MimeApps.readFrom valid (MimeApps.saveTo ⟨a, d⟩) = .ok ⟨a, d⟩ := by
  have hretain : mapRetainNonEmpty d = d := by
    rw [mapRetainNonEmpty, List.filter_eq_self]
    intro p hp
    have hne := (hd.2 p hp).2.1
    simpa using hne
  have hsave : MimeApps.saveTo ⟨a, d⟩
      = (if a.isEmpty then [] else addedHeader :: a.map MimeApps.kvLine)
        ++ (if d.isEmpty then [] else defaultsHeader :: d.map MimeApps.kvLine) := by
    simp only [MimeApps.saveTo, hretain]
  unfold MimeApps.readFrom
  rw [hsave]
  by_cases haE : a = []
  · subst haE
    rw [show (if ([] : MimeMap).isEmpty then ([] : List Str)
        else addedHeader :: ([] : MimeMap).map MimeApps.kvLine) = [] from rfl,
      List.nil_append]
    by_cases hdE : d = []
    · subst hdE
      rfl
    · have hdE2 : ¬(d.isEmpty = true) := by
        cases d with
        | nil => exact absurd rfl hdE
        | cons x xs => simp
      rw [if_neg hdE2, parseAll_cons, parseStep_defaultsHeader rfl]
      dsimp only
      rw [parseAll_kvs hd (Or.inr rfl) (fun h => by simp at h)
        (fun _ p hp => (List.not_mem_nil p hp).elim)]
      dsimp only
      rw [List.nil_append, hretain]
  · have haE2 : ¬(a.isEmpty = true) := by
      cases a with
      | nil => exact absurd rfl haE
      | cons x xs => simp
    rw [if_neg haE2, List.cons_append, parseAll_cons, parseStep_addedHeader rfl]
    dsimp only
    rw [parseAll_append (a.map MimeApps.kvLine) _ _]
    rw [parseAll_kvs ha (Or.inl rfl) (fun _ p hp => (List.not_mem_nil p hp).elim)
      (fun h => by simp at h)]
    dsimp only
    by_cases hdE : d = []
    · subst hdE
      rw [show (if ([] : MimeMap).isEmpty then ([] : List Str)
          else defaultsHeader :: ([] : MimeMap).map MimeApps.kvLine) = [] from rfl]
      dsimp only [parseAll]
      rw [List.nil_append]
      rfl
    · have hdE2 : ¬(d.isEmpty = true) := by
        cases d with
        | nil => exact absurd rfl hdE
        | cons x xs => simp
      rw [if_neg hdE2, parseAll_cons, parseStep_defaultsHeader rfl]
      dsimp only
      rw [parseAll_kvs hd (Or.inr rfl) (fun h => by simp at h)
        (fun _ p hp => (List.not_mem_nil p hp).elim)]
      dsimp only
      rw [List.nil_append, List.nil_append, hretain]

/-- C1: reading a well-formed association file and immediately saving
it with no mutation reproduces the file line for line (the line
representation absorbs the CRLF/LF distinction). -/
theorem mimeapps_round_trip (valid : Str → Bool) (f : List Str)
    (hwf : wellFormedAssocFile valid f) :
    (MimeApps.readFrom valid f).map MimeApps.saveTo = .ok f := by
  obtain ⟨a, d, ha, hd, rfl⟩ := hwf
  rw [readFrom_saveTo ha hd]
  rfl

/-- Witness for C1: the round trip on a concrete two-section file. -/
theorem mimeapps_round_trip_witness :
    wellFormedAssocFile (fun h => h = "nvim.desktop".data)
      ["[Added Associations]".data,
       "text/html=nvim.desktop;".data,
       "[Default Applications]".data,
       "text/html=nvim.desktop;".data,
       "text/plain=nvim.desktop;".data] ∧
    (MimeApps.readFrom (fun h => h = "nvim.desktop".data)
      ["[Added Associations]".data,
       "text/html=nvim.desktop;".data,
       "[Default Applications]".data,
       "text/html=nvim.desktop;".data,
       "text/plain=nvim.desktop;".data]).map MimeApps.saveTo
      = .ok ["[Added Associations]".data,
       "text/html=nvim.desktop;".data,
       "[Default Applications]".data,
       "text/html=nvim.desktop;".data,
       "text/plain=nvim.desktop;".data] := by
  have hwf : wellFormedAssocFile (fun h => h = "nvim.desktop".data)
      ["[Added Associations]".data,
       "text/html=nvim.desktop;".data,
       "[Default Applications]".data,
       "text/html=nvim.desktop;".data,
       "text/plain=nvim.desktop;".data] :=
    ⟨[("text/html".data, ["nvim.desktop".data])],
     [("text/html".data, ["nvim.desktop".data]),
      ("text/plain".data, ["nvim.desktop".data])],
     by constructor
        · decide
        · decide,
     by constructor
        · decide
        · decide,
     by decide⟩
  exact ⟨hwf, mimeapps_round_trip (fun h => h = "nvim.desktop".data) _ hwf⟩

end Handlr
